import Mathlib

/-!
Verification of the core of the `recommender_system` repository
(`src/main.cpp`, `src/core.cpp`, `sparse_matrix.hpp`).

Shallow embedding conventions:
* `size_t` ids are `ℕ`; `double` values are modelled as elements of a
  `LinearOrderedField` (instantiated at `ℚ` or `ℝ`): floating-point
  arithmetic is idealised as exact field arithmetic, and
  `std::numeric_limits<double>::epsilon()` is the exact rational `2 ^ (-52)`.
* `std::sqrt` is `Real.sqrt`, so the functions that take square roots
  (`pearson`, `RMSE`, and everything downstream of them) are stated over `ℝ`.
* `SparseMatrix<T>` keeps its entries in a vector sorted by `(row, col)`
  (sorted on construction, immutable afterwards); the binary-search based
  accessors `get` / `get_row` are embedded as the first match / the sublist
  of matching rows, which is exactly the span the binary search returns on
  the sorted vector.
* `std::map<K,V>` caches that are only ever read through `operator[]`
  (which default-inserts `V{}`) are modelled as total functions with the
  corresponding default value.
* C++ exceptions (`RMSE`) are modelled with `Except String`.
-/

/-- `std::numeric_limits<double>::epsilon()`, exactly `2 ^ (-52)`. -/
def eps (α : Type) [LinearOrderedField α] : α := 1 / 2 ^ 52

/-- `SparseMatrix<T>::Item`: one `(row, col, value)` entry. -/
structure SMItem (α : Type) where
  row : ℕ
  col : ℕ
  val : α
deriving DecidableEq, Repr

/-- `Item::operator<` (strict lexicographic order on `(row, col)`). -/
def keyLT {α : Type} (a b : SMItem α) : Prop :=
  a.row < b.row ∨ (a.row = b.row ∧ a.col < b.col)

/-- The non-strict version of `Item::operator<`; `std::sort` produces a
sequence that is non-decreasing for this order. -/
def keyLE {α : Type} (a b : SMItem α) : Prop :=
  a.row < b.row ∨ (a.row = b.row ∧ a.col ≤ b.col)

/-- Boolean form of `keyLE`, used as the comparator handed to the sort. -/
def itemLE {α : Type} (a b : SMItem α) : Bool :=
  decide (a.row < b.row ∨ (a.row = b.row ∧ a.col ≤ b.col))

/-- Sorted insertion for `sortLe`. -/
def insertLe {β : Type} (le : β → β → Bool) (a : β) : List β → List β
  | [] => [a]
  | b :: l => if le a b then a :: b :: l else b :: insertLe le a l

/-- Insertion sort with comparator `le`.  `std::sort` is embedded by this
sort: both produce a permutation of the input that is non-decreasing for
`le` (with `std::sort` unstable, the order of tied elements is unspecified
in the source as well). -/
def sortLe {β : Type} (le : β → β → Bool) : List β → List β
  | [] => []
  | a :: l => insertLe le a (sortLe le l)

theorem insertLe_perm {β : Type} (le : β → β → Bool) (a : β) (l : List β) :
    (insertLe le a l).Perm (a :: l) := by
  induction l with
  | nil => simp [insertLe]
  | cons b l ih =>
    by_cases h : le a b = true
    · simp [insertLe, h]
    · simp only [insertLe, if_neg h]
      exact (ih.cons b).trans (List.Perm.swap a b l)

theorem sortLe_perm {β : Type} (le : β → β → Bool) (l : List β) :
    (sortLe le l).Perm l := by
  induction l with
  | nil => simp [sortLe]
  | cons a l ih => exact (insertLe_perm le a (sortLe le l)).trans (ih.cons a)

theorem mem_sortLe {β : Type} (le : β → β → Bool) (x : β) (l : List β) :
    x ∈ sortLe le l ↔ x ∈ l :=
  (sortLe_perm le l).mem_iff

theorem length_sortLe {β : Type} (le : β → β → Bool) (l : List β) :
    (sortLe le l).length = l.length :=
  (sortLe_perm le l).length_eq

theorem pairwise_insertLe {β : Type} {le : β → β → Bool}
    (htrans : ∀ a b c, le a b = true → le b c = true → le a c = true)
    (htot : ∀ a b, le a b = true ∨ le b a = true) (a : β) (l : List β)
    (h : l.Pairwise (fun x y => le x y = true)) :
    (insertLe le a l).Pairwise (fun x y => le x y = true) := by
  induction l with
  | nil => simp [insertLe]
  | cons b l ih =>
    rcases List.pairwise_cons.mp h with ⟨hb, hl⟩
    by_cases hab : le a b = true
    · simp only [insertLe, if_pos hab]
      refine List.pairwise_cons.mpr ⟨?_, h⟩
      intro x hx
      rcases List.mem_cons.mp hx with rfl | hx
      · exact hab
      · exact htrans a b x hab (hb x hx)
    · have hba : le b a = true := (htot a b).resolve_left hab
      simp only [insertLe, if_neg hab]
      refine List.pairwise_cons.mpr ⟨?_, ih hl⟩
      intro x hx
      rcases List.mem_cons.mp ((insertLe_perm le a l).mem_iff.mp hx) with rfl | h1
      · exact hba
      · exact hb x h1

theorem pairwise_sortLe {β : Type} {le : β → β → Bool}
    (htrans : ∀ a b c, le a b = true → le b c = true → le a c = true)
    (htot : ∀ a b, le a b = true ∨ le b a = true) (l : List β) :
    (sortLe le l).Pairwise (fun x y => le x y = true) := by
  induction l with
  | nil => simp [sortLe]
  | cons a l ih => exact pairwise_insertLe htrans htot a _ ih

instance {α : Type} : DecidableRel fun a b : SMItem α => keyLT a b :=
  fun a b => by unfold keyLT; infer_instance

/-- `SparseMatrix<T>`: the entry vector.  The C++ class also stores the set
of distinct row ids (`rows`); that set is recomputed here by `row_indexes`,
which agrees with it because `std::set` iterates its elements in ascending
order and `dedup` of the row projection of the sorted entry vector is
exactly that ascending enumeration. -/
structure SparseMatrix (α : Type) where
  items : List (SMItem α)

/-- The constructor `SparseMatrix(std::vector<Item> unordered_items)`:
copies the entries and sorts them by `(row, col)`. -/
def SparseMatrix.ofItems {α : Type} (unordered_items : List (SMItem α)) :
    SparseMatrix α :=
  ⟨sortLe itemLE unordered_items⟩

/-- `get_all()`: the full (sorted) entry vector. -/
def SparseMatrix.get_all {α : Type} (m : SparseMatrix α) : List (SMItem α) :=
  m.items

/-- `row_indexes()`: the set of distinct row ids, in ascending order for a
matrix built by the constructor. -/
def SparseMatrix.row_indexes {α : Type} (m : SparseMatrix α) : List ℕ :=
  (m.items.map SMItem.row).dedup

/-- `get_row(row)`: the contiguous range of entries with the given row that
the two binary searches delimit; on the sorted entry vector this is the
sublist of entries whose `row` field matches. -/
def SparseMatrix.get_row {α : Type} (m : SparseMatrix α) (r : ℕ) :
    List (SMItem α) :=
  m.items.filter (fun it => it.row == r)

/-- `get(row, col)`: binary search for the key; `-1` (the `NOT_FOUND`
sentinel) when absent, the first stored value for that key otherwise. -/
def SparseMatrix.get {α : Type} [One α] [Neg α] (m : SparseMatrix α)
    (r c : ℕ) : α :=
  match m.items.find? (fun it => it.row == r && it.col == c) with
  | some it => it.val
  | none => -1

/-- `transpose()`: swap `row`/`col` on every entry and rebuild through the
sorting constructor. -/
def SparseMatrix.transpose {α : Type} (m : SparseMatrix α) : SparseMatrix α :=
  SparseMatrix.ofItems (m.items.map (fun it => ⟨it.col, it.row, it.val⟩))

theorem itemLE_trans {α : Type} (a b c : SMItem α) (hab : itemLE a b = true)
    (hbc : itemLE b c = true) : itemLE a c = true := by
  simp only [itemLE, decide_eq_true_eq] at *
  omega

theorem itemLE_total {α : Type} (a b : SMItem α) :
    (itemLE a b || itemLE b a) = true := by
  simp only [itemLE, Bool.or_eq_true, decide_eq_true_eq]
  omega

theorem ofItems_sorted {α : Type} (l : List (SMItem α)) :
    List.Pairwise keyLE (SparseMatrix.ofItems l).items := by
  have h := @pairwise_sortLe (SMItem α) itemLE
    (fun a b c => itemLE_trans a b c)
    (fun a b => by
      have := itemLE_total a b
      rcases Bool.or_eq_true_iff.mp this with h | h
      · exact Or.inl h
      · exact Or.inr h) l
  refine h.imp ?_
  intro a b hab
  simpa [itemLE, keyLE] using hab

theorem ofItems_mem {α : Type} (l : List (SMItem α)) (it : SMItem α) :
    it ∈ (SparseMatrix.ofItems l).items ↔ it ∈ l :=
  mem_sortLe itemLE it l

theorem row_indexes_iff {α : Type} (m : SparseMatrix α) (r : ℕ) :
    r ∈ m.row_indexes ↔ ∃ it ∈ m.items, it.row = r := by
  simp [SparseMatrix.row_indexes, List.mem_dedup, List.mem_map, eq_comm]

theorem row_indexes_nodup {α : Type} (m : SparseMatrix α) :
    m.row_indexes.Nodup :=
  List.nodup_dedup _

/-- C9: every matrix produced by the constructor — and hence by
`transpose`, which rebuilds through the constructor — has `get_all()`
sorted ascending by `(row, col)`, and `row_indexes()` is exactly the set of
distinct row values occurring in `get_all()` (same membership, no
duplicates). -/
theorem sparse_matrix_construction_invariants (α : Type)
    (l : List (SMItem α)) :
    (List.Pairwise keyLE (SparseMatrix.ofItems l).get_all
      ∧ (∀ r, r ∈ (SparseMatrix.ofItems l).row_indexes
          ↔ ∃ it ∈ (SparseMatrix.ofItems l).get_all, it.row = r)
      ∧ (SparseMatrix.ofItems l).row_indexes.Nodup)
    ∧ (List.Pairwise keyLE (SparseMatrix.ofItems l).transpose.get_all
      ∧ (∀ r, r ∈ (SparseMatrix.ofItems l).transpose.row_indexes
          ↔ ∃ it ∈ (SparseMatrix.ofItems l).transpose.get_all, it.row = r)
      ∧ (SparseMatrix.ofItems l).transpose.row_indexes.Nodup) := by
  refine ⟨⟨ofItems_sorted l, fun r => row_indexes_iff _ r, row_indexes_nodup _⟩, ?_⟩
  show List.Pairwise keyLE (SparseMatrix.ofItems _).get_all ∧ _
  exact ⟨ofItems_sorted _, fun r => row_indexes_iff _ r, row_indexes_nodup _⟩

/-- One iteration of the inner loop of `make_train_test` (src/main.cpp):
entry `p = (i, row[i])` goes to the test accumulator when the index window
`[base, base + test_count)` (taken cyclically via `next_i = i + row_len`)
contains it, and to the train accumulator otherwise. -/
def splitStep {α : Type} (row_len test_count base : ℕ)
    (acc : List (SMItem α) × List (SMItem α)) (p : ℕ × SMItem α) :
    List (SMItem α) × List (SMItem α) :=
  let i := p.1
  let next_i := i + row_len
  if (base ≤ i ∧ i < base + test_count) ∨
      (base ≤ next_i ∧ next_i < base + test_count) then
    (acc.1, acc.2 ++ [p.2])
  else
    (acc.1 ++ [p.2], acc.2)

/-- `make_train_test` of src/main.cpp.  The C++ code seeds `srand(42)` and
takes `seed = rand()`; the (libc-specific) value of that call is passed
here as the explicit `seed` argument.  A user whose row has at most
`test_count` entries is skipped by the `continue` before either
accumulator is touched. -/
def make_train_test {α : Type} (mat : SparseMatrix α)
    (test_count seed : ℕ) : SparseMatrix α × SparseMatrix α :=
  let split := mat.row_indexes.foldl (fun acc row_id =>
    let row := mat.get_row row_id
    if row.length ≤ test_count then acc
    else row.enum.foldl
      (splitStep row.length test_count (seed % row.length)) acc)
    ([], [])
  (SparseMatrix.ofItems split.1, SparseMatrix.ofItems split.2)

theorem splitStep_fold_mem {α : Type} (row_len test_count base : ℕ)
    (l : List (ℕ × SMItem α)) (acc : List (SMItem α) × List (SMItem α))
    (x : SMItem α)
    (hx : x ∈ (l.foldl (splitStep row_len test_count base) acc).1
        ∨ x ∈ (l.foldl (splitStep row_len test_count base) acc).2) :
    (x ∈ acc.1 ∨ x ∈ acc.2) ∨ ∃ p ∈ l, p.2 = x := by
  induction l generalizing acc with
  | nil => exact Or.inl hx
  | cons p l ih =>
    simp only [List.foldl_cons] at hx
    rcases ih _ hx with h | h
    · by_cases hc : (base ≤ p.1 ∧ p.1 < base + test_count) ∨
          (base ≤ p.1 + row_len ∧ p.1 + row_len < base + test_count)
      · simp only [splitStep, if_pos hc] at h
        rcases h with h | h
        · exact Or.inl (Or.inl h)
        · rcases List.mem_append.mp h with h | h
          · exact Or.inl (Or.inr h)
          · exact Or.inr ⟨p, List.mem_cons_self p l, (List.mem_singleton.mp h).symm⟩
      · simp only [splitStep, if_neg hc] at h
        rcases h with h | h
        · rcases List.mem_append.mp h with h | h
          · exact Or.inl (Or.inl h)
          · exact Or.inr ⟨p, List.mem_cons_self p l, (List.mem_singleton.mp h).symm⟩
        · exact Or.inl (Or.inr h)
    · rcases h with ⟨q, hq, hqx⟩
      exact Or.inr ⟨q, List.mem_cons_of_mem p hq, hqx⟩

theorem make_train_test_rows_mem {α : Type} (mat : SparseMatrix α)
    (test_count seed : ℕ) (rids : List ℕ)
    (acc : List (SMItem α) × List (SMItem α)) (x : SMItem α)
    (hx : x ∈ (rids.foldl (fun acc row_id =>
        let row := mat.get_row row_id
        if row.length ≤ test_count then acc
        else row.enum.foldl
          (splitStep row.length test_count (seed % row.length)) acc) acc).1
      ∨ x ∈ (rids.foldl (fun acc row_id =>
        let row := mat.get_row row_id
        if row.length ≤ test_count then acc
        else row.enum.foldl
          (splitStep row.length test_count (seed % row.length)) acc) acc).2) :
    (x ∈ acc.1 ∨ x ∈ acc.2)
      ∨ ∃ rid ∈ rids, test_count < (mat.get_row rid).length ∧
          x ∈ mat.get_row rid := by
  induction rids generalizing acc with
  | nil => exact Or.inl hx
  | cons r rids ih =>
    simp only [List.foldl_cons] at hx
    rcases ih _ hx with h | h
    · by_cases hr : (mat.get_row r).length ≤ test_count
      · simp only [if_pos hr] at h
        exact Or.inl h
      · simp only [if_neg hr] at h
        rcases splitStep_fold_mem _ _ _ _ _ _ h with h | h
        · exact Or.inl h
        · rcases h with ⟨p, hp, hpx⟩
          refine Or.inr ⟨r, List.mem_cons_self r rids, Nat.lt_of_not_le hr, ?_⟩
          rw [← hpx]
          exact List.snd_mem_of_mem_enum hp
    · rcases h with ⟨rid, hrid, hlen, hxr⟩
      exact Or.inr ⟨rid, List.mem_cons_of_mem r hrid, hlen, hxr⟩

theorem mem_get_row_eq_row {α : Type} {mat : SparseMatrix α} {r : ℕ}
    {x : SMItem α} (hx : x ∈ mat.get_row r) : x.row = r := by
  have := (List.mem_filter.mp hx).2
  simpa using this

/-- C2 counterexample: the matrix holding the single rating
`(user 1, item 10, value 5)` with `test_count = 3` (and seed 42, though any
seed gives the same result for a skipped user).  The user's row has at most
`test_count` entries, yet their rating does NOT appear in the train output:
the `continue` drops such users from both halves, while the claim asserts
all their ratings remain in train. -/
theorem make_train_test_cex :
    ((SparseMatrix.ofItems [⟨1, 10, (5 : ℚ)⟩]).get_row 1).length ≤ 3
    ∧ (⟨1, 10, (5 : ℚ)⟩ : SMItem ℚ)
        ∈ (SparseMatrix.ofItems [⟨1, 10, (5 : ℚ)⟩]).get_all
    ∧ (⟨1, 10, (5 : ℚ)⟩ : SMItem ℚ)
        ∉ (make_train_test (SparseMatrix.ofItems [⟨1, 10, (5 : ℚ)⟩]) 3 42).1.get_all := by
  decide

/-- C2 amended: for every matrix, held-out count and seed, a user whose row
has at most `test_count` entries contributes no entries to the test output
— and none to the train output either: the split drops such users from
both halves (the claim's assertion that their ratings remain in train is
what the counterexample refutes). -/
theorem make_train_test_skips_small_rows {α : Type} (mat : SparseMatrix α)
    (test_count seed user : ℕ)
    (h : (mat.get_row user).length ≤ test_count) :
    (∀ it ∈ (make_train_test mat test_count seed).2.get_all, it.row ≠ user)
    ∧ (∀ it ∈ (make_train_test mat test_count seed).1.get_all, it.row ≠ user) := by
  constructor
  all_goals
    intro it hit
    simp only [make_train_test, SparseMatrix.get_all, SparseMatrix.ofItems,
      mem_sortLe] at hit
    rcases make_train_test_rows_mem mat test_count seed _ _ it
        (by first | exact Or.inr hit | exact Or.inl hit) with hmem | hmem
    · simp at hmem
    · rcases hmem with ⟨rid, _, hlen, hxr⟩
      have hrow := mem_get_row_eq_row hxr
      intro hcon
      rw [hcon] at hrow
      rw [← hrow] at hlen
      omega

/-- C2 witness: instantiating the amended theorem at the concrete
counterexample matrix. -/
theorem make_train_test_skips_small_rows_witness :
    ((SparseMatrix.ofItems [⟨1, 10, (5 : ℚ)⟩]).get_row 1).length ≤ 3
    ∧ ∀ it ∈ (make_train_test (SparseMatrix.ofItems [⟨1, 10, (5 : ℚ)⟩]) 3 42).2.get_all,
        it.row ≠ 1 :=
  ⟨by decide,
    (make_train_test_skips_small_rows (SparseMatrix.ofItems [⟨1, 10, (5 : ℚ)⟩])
      3 42 1 (by decide)).1⟩

/-- `get_avg_score_by_row` (src/main.cpp lines 207-219): the per-row mean.
The C++ result is a `std::map` over exactly `row_indexes()`; downstream it
is only read through `operator[]`, which default-inserts `0.0` for missing
keys, so the map is modelled as a total function defaulting to `0`. -/
def get_avg_score_by_row {α : Type} [LinearOrderedField α]
    (mat : SparseMatrix α) : ℕ → α := fun row_id =>
  if row_id ∈ mat.row_indexes then
    ((mat.get_row row_id).map SMItem.val).sum / ((mat.get_row row_id).length : α)
  else 0

/-- `get_global_avg_score` (src/main.cpp lines 226-234). -/
def get_global_avg_score {α : Type} [LinearOrderedField α]
    (mat : SparseMatrix α) : α :=
  (mat.get_all.map SMItem.val).sum / (mat.get_all.length : α)

/-- `std::clamp(v, lo, hi)`: `v < lo ? lo : (hi < v ? hi : v)`. -/
def clamp {α : Type} [LinearOrder α] (v lo hi : α) : α :=
  if v < lo then lo else if hi < v then hi else v

theorem clamp_mem {α : Type} [LinearOrder α] (v lo hi : α) (h : lo ≤ hi) :
    lo ≤ clamp v lo hi ∧ clamp v lo hi ≤ hi := by
  unfold clamp
  split
  · exact ⟨le_refl lo, h⟩
  · split
    · exact ⟨h, le_refl hi⟩
    · next h1 h2 => exact ⟨le_of_not_lt h1, le_of_not_lt h2⟩

/-- One iteration of the neighbor-aggregation loop of `predict_impl`
(src/main.cpp lines 441-459); the accumulator is
`(numerator, denominator, contributing count)`.  A neighbor whose stored
rating for `item_id` is absent (`get` returns the negative sentinel) is
skipped. -/
def neighborStep {α : Type} [LinearOrderedField α] (user_mat : SparseMatrix α)
    (item_id : ℕ) (global_avg_score : α) (user_avg_score : ℕ → α)
    (bias_item : α) (acc : α × α × ℕ) (p : ℕ × α) : α × α × ℕ :=
  let similar_user_score := user_mat.get p.1 item_id
  if similar_user_score < 0 then acc
  else
    let bias_similar_user := user_avg_score p.1 - global_avg_score
    let similar_score_base := global_avg_score + bias_similar_user + bias_item
    (acc.1 + p.2 * (similar_user_score - similar_score_base),
      acc.2.1 + |p.2|, acc.2.2 + 1)

/-- `predict_impl` with `consider_similar_items = false`: the neighbor
aggregation, the insufficiency test, and either the sentinel `-1` or the
clamped neighbor-adjusted baseline.  This is exactly the instance of the
C++ function reached by its recursive call — on that re-entry the fallback
branch exits with `-1` before any further recursion can happen. -/
def predict_base {α : Type} [LinearOrderedField α] (user_id item_id : ℕ)
    (user_mat : SparseMatrix α) (global_avg_score : α)
    (user_avg_score item_avg_score : ℕ → α)
    (similar_score_map : ℕ → List (ℕ × α)) : α :=
  let bias_user := user_avg_score user_id - global_avg_score
  let bias_item := item_avg_score item_id - global_avg_score
  let score_base := global_avg_score + bias_user + bias_item
  let nds := (similar_score_map user_id).foldl
    (neighborStep user_mat item_id global_avg_score user_avg_score bias_item)
    (0, 0, 0)
  if nds.2.1 < eps α ∨ nds.2.2 ≤ 1 then -1
  else clamp (score_base + nds.1 / nds.2.1) 0 100

/-- `get_similar_items` (src/main.cpp lines 391-405): for each attribute of
`item_id` (a row entry of the item-attribute matrix), the row of the
reverse matrix for that attribute.  The C++ function returns a fixed
`std::array` of two spans whose unused slots stay default-empty; an empty
group contributes nothing downstream (its loop body never runs), so the
list of present groups is extensionally equivalent. -/
def get_similar_items (item_id : ℕ)
    (item_attr item_attr_rev : SparseMatrix ℤ) : List (List (SMItem ℤ)) :=
  (item_attr.get_row item_id).map (fun a => item_attr_rev.get_row a.col)

/-- Inner loop body of the attribute fallback of `predict_impl`
(src/main.cpp lines 485-524): one candidate sibling item.  First try the
user's stored rating; if absent, re-enter the prediction with fallback
disallowed (`predict_base`); if still negative, skip. -/
def siblingStep {α : Type} [LinearOrderedField α] (user_id item_id : ℕ)
    (user_mat : SparseMatrix α) (global_avg_score : α)
    (user_avg_score item_avg_score : ℕ → α)
    (similar_score_map : ℕ → List (ℕ × α)) (attr_weight : α)
    (acc : α × α) (entry : SMItem ℤ) : α × α :=
  if entry.col = item_id then acc
  else
    let first_try := user_mat.get user_id entry.col
    let similar_item_score :=
      if first_try < 0 then
        predict_base user_id entry.col user_mat global_avg_score
          user_avg_score item_avg_score similar_score_map
      else first_try
    if similar_item_score < 0 then acc
    else (acc.1 + attr_weight * similar_item_score, acc.2 + attr_weight)

/-- Outer loop body of the attribute fallback (src/main.cpp lines
474-526): one attribute group.  `similar_item_count = items.size() - 1`
excludes the item itself; the `count <= 0` test on `size_t` means
`count == 0` (a group of exactly one item is skipped).  A C++ group of
size zero underflows to `SIZE_MAX` and is not skipped, but its loop body
runs zero times, so modelling `0 - 1 = 0` in `ℕ` (which skips) is
extensionally identical. -/
def attrGroupStep {α : Type} [LinearOrderedField α] (user_id item_id : ℕ)
    (user_mat : SparseMatrix α) (global_avg_score : α)
    (user_avg_score item_avg_score : ℕ → α)
    (similar_score_map : ℕ → List (ℕ × α))
    (acc : α × α) (items : List (SMItem ℤ)) : α × α :=
  let similar_item_count := items.length - 1
  if similar_item_count = 0 then acc
  else items.foldl
    (siblingStep user_id item_id user_mat global_avg_score user_avg_score
      item_avg_score similar_score_map ((1 : α) / (similar_item_count : α)))
    acc

/-- `predict_impl` (src/main.cpp lines 422-543).  The recursive call (which
always passes `consider_similar_items = false`, and on that re-entry
returns before recursing again) appears as `predict_base`; theorem
`predict_impl_false` below checks that the `false` instance of this
definition coincides with `predict_base`, so the embedding agrees with the
literal self-recursive form of the source. -/
def predict_impl {α : Type} [LinearOrderedField α] (user_id item_id : ℕ)
    (user_mat : SparseMatrix α) (global_avg_score : α)
    (user_avg_score item_avg_score : ℕ → α)
    (similar_score_map : ℕ → List (ℕ × α))
    (item_attr item_attr_rev : SparseMatrix ℤ)
    (consider_similar_items : Bool) : α :=
  let bias_user := user_avg_score user_id - global_avg_score
  let bias_item := item_avg_score item_id - global_avg_score
  let score_base := global_avg_score + bias_user + bias_item
  let nds := (similar_score_map user_id).foldl
    (neighborStep user_mat item_id global_avg_score user_avg_score bias_item)
    (0, 0, 0)
  if nds.2.1 < eps α ∨ nds.2.2 ≤ 1 then
    if consider_similar_items = false then -1
    else
      let nd := (get_similar_items item_id item_attr item_attr_rev).foldl
        (attrGroupStep user_id item_id user_mat global_avg_score
          user_avg_score item_avg_score similar_score_map)
        (0, 0)
      let score := if eps α < nd.2 then nd.1 / nd.2 else score_base
      clamp score 0 100
  else clamp (score_base + nds.1 / nds.2.1) 0 100

theorem predict_impl_false {α : Type} [LinearOrderedField α]
    (user_id item_id : ℕ) (user_mat : SparseMatrix α) (global_avg_score : α)
    (user_avg_score item_avg_score : ℕ → α)
    (similar_score_map : ℕ → List (ℕ × α))
    (item_attr item_attr_rev : SparseMatrix ℤ) :
    predict_impl user_id item_id user_mat global_avg_score user_avg_score
      item_avg_score similar_score_map item_attr item_attr_rev false
    = predict_base user_id item_id user_mat global_avg_score user_avg_score
        item_avg_score similar_score_map :=
  rfl

theorem predict_base_cases {α : Type} [LinearOrderedField α]
    (user_id item_id : ℕ) (user_mat : SparseMatrix α) (ga : α) (ua ia : ℕ → α)
    (sm : ℕ → List (ℕ × α)) :
    predict_base user_id item_id user_mat ga ua ia sm = -1
    ∨ (0 ≤ predict_base user_id item_id user_mat ga ua ia sm
        ∧ predict_base user_id item_id user_mat ga ua ia sm ≤ 100) := by
  unfold predict_base
  dsimp only
  split
  · exact Or.inl rfl
  · exact Or.inr (clamp_mem _ 0 100 (by norm_num))

theorem predict_impl_cases {α : Type} [LinearOrderedField α]
    (user_id item_id : ℕ) (user_mat : SparseMatrix α) (ga : α) (ua ia : ℕ → α)
    (sm : ℕ → List (ℕ × α)) (item_attr item_attr_rev : SparseMatrix ℤ)
    (c : Bool) :
    (0 ≤ predict_impl user_id item_id user_mat ga ua ia sm item_attr
        item_attr_rev c
      ∧ predict_impl user_id item_id user_mat ga ua ia sm item_attr
          item_attr_rev c ≤ 100)
    ∨ (c = false
      ∧ predict_impl user_id item_id user_mat ga ua ia sm item_attr
          item_attr_rev c = -1) := by
  unfold predict_impl
  dsimp only
  split
  · cases c with
    | false => exact Or.inr ⟨rfl, rfl⟩
    | true =>
      simp only [Bool.true_eq_false, if_false]
      exact Or.inl (clamp_mem _ 0 100 (by norm_num))
  · exact Or.inl (clamp_mem _ 0 100 (by norm_num))

/-- C1 counterexample: with the fallback-allowed flag `false` and no
neighbor evidence at all (empty matrix and maps), `predict_impl` returns
the sentinel `-1`, which is outside `[0, 100]`.  Instantiated at `ℚ`. -/
theorem predict_impl_range_cex :
    predict_impl 0 0 (SparseMatrix.ofItems ([] : List (SMItem ℚ))) 0
      (fun _ => 0) (fun _ => 0) (fun _ => []) (SparseMatrix.ofItems [])
      (SparseMatrix.ofItems []) false = -1
    ∧ ¬ (0 ≤ (-1 : ℚ) ∧ (-1 : ℚ) ≤ 100) := by
  constructor
  · rw [predict_impl_false]
    simp [predict_base]
  · norm_num

/-- C1 amended: for every finite input, the value returned by
`predict_impl` lies in `[0, 100]` — except that when the fallback-allowed
flag is `false` and the neighbor evidence is insufficient the function
returns the `NOT_FOUND` sentinel `-1` instead (the case the counterexample
exhibits). -/
theorem predict_impl_range {α : Type} [LinearOrderedField α]
    (user_id item_id : ℕ) (user_mat : SparseMatrix α) (ga : α) (ua ia : ℕ → α)
    (sm : ℕ → List (ℕ × α)) (item_attr item_attr_rev : SparseMatrix ℤ)
    (c : Bool) :
    (0 ≤ predict_impl user_id item_id user_mat ga ua ia sm item_attr
        item_attr_rev c
      ∧ predict_impl user_id item_id user_mat ga ua ia sm item_attr
          item_attr_rev c ≤ 100)
    ∨ (c = false
      ∧ predict_impl user_id item_id user_mat ga ua ia sm item_attr
          item_attr_rev c = -1) :=
  predict_impl_cases user_id item_id user_mat ga ua ia sm item_attr
    item_attr_rev c

/-- The neighbors of a similarity list that contribute to the neighbor
aggregation of `predict_impl`: those whose stored rating for `item_id` is
present (`get` does not return the negative sentinel). -/
def contributingNeighbors {α : Type} [LinearOrderedField α]
    (user_mat : SparseMatrix α) (item_id : ℕ) (l : List (ℕ × α)) :
    List (ℕ × α) :=
  l.filter (fun p => !decide (user_mat.get p.1 item_id < 0))

/-- Specification-level contributing-neighbor count. -/
def specCount {α : Type} [LinearOrderedField α] (user_mat : SparseMatrix α)
    (item_id : ℕ) (l : List (ℕ × α)) : ℕ :=
  (contributingNeighbors user_mat item_id l).length

/-- Specification-level denominator: the sum of the absolute similarities
of the contributing neighbors. -/
def specDen {α : Type} [LinearOrderedField α] (user_mat : SparseMatrix α)
    (item_id : ℕ) (l : List (ℕ × α)) : α :=
  ((contributingNeighbors user_mat item_id l).map (fun p => |p.2|)).sum

/-- Specification-level numerator: for each contributing neighbor, the
similarity times the neighbor's rating minus the neighbor's own baseline
(global average plus the neighbor's user bias plus the item bias). -/
def specNum {α : Type} [LinearOrderedField α] (user_mat : SparseMatrix α)
    (item_id : ℕ) (ga : α) (ua ia : ℕ → α) (l : List (ℕ × α)) : α :=
  ((contributingNeighbors user_mat item_id l).map (fun p =>
    p.2 * (user_mat.get p.1 item_id
      - (ga + (ua p.1 - ga) + (ia item_id - ga))))).sum

theorem neighborFold_spec {α : Type} [LinearOrderedField α]
    (user_mat : SparseMatrix α) (item_id : ℕ) (ga : α) (ua ia : ℕ → α)
    (l : List (ℕ × α)) (acc : α × α × ℕ) :
    l.foldl (neighborStep user_mat item_id ga ua (ia item_id - ga)) acc
    = (acc.1 + specNum user_mat item_id ga ua ia l,
        acc.2.1 + specDen user_mat item_id l,
        acc.2.2 + specCount user_mat item_id l) := by
  induction l generalizing acc with
  | nil =>
    simp [specNum, specDen, specCount, contributingNeighbors]
  | cons p l ih =>
    by_cases hp : user_mat.get p.1 item_id < 0
    · simp only [List.foldl_cons, neighborStep, if_pos hp, ih,
        specNum, specDen, specCount, contributingNeighbors, List.filter_cons,
        decide_eq_true_eq, hp, Bool.not_eq_true']
      simp [hp]
    · simp only [List.foldl_cons, neighborStep, if_neg hp, ih,
        specNum, specDen, specCount, contributingNeighbors, List.filter_cons]
      simp only [hp, decide_False, Bool.not_false, if_true, List.map_cons,
        List.sum_cons, List.length_cons]
      refine Prod.ext ?_ (Prod.ext ?_ ?_)
      · simp; ring
      · simp; ring
      · simp; omega

/-- C4: neighbor evidence is judged insufficient exactly when the
accumulated denominator of absolute similarities is below machine epsilon
or the count of contributing neighbors is at most 1.  First conjunct:
whenever the evidence is sufficient (denominator at least epsilon and at
least two contributors), the result — for either value of the flag — is
the baseline plus numerator/denominator, clamped to `[0, 100]`.  Second
conjunct: whenever it is insufficient, the neighbor formula is not used
(observable through the `false` flag, where the fallback path returns the
sentinel `-1`). -/
theorem predict_impl_neighbor_decision {α : Type} [LinearOrderedField α]
    (user_id item_id : ℕ) (user_mat : SparseMatrix α) (ga : α) (ua ia : ℕ → α)
    (sm : ℕ → List (ℕ × α)) (item_attr item_attr_rev : SparseMatrix ℤ) :
    (eps α ≤ specDen user_mat item_id (sm user_id) →
      2 ≤ specCount user_mat item_id (sm user_id) →
      ∀ c, predict_impl user_id item_id user_mat ga ua ia sm item_attr
          item_attr_rev c
        = clamp (ga + (ua user_id - ga) + (ia item_id - ga)
            + specNum user_mat item_id ga ua ia (sm user_id)
              / specDen user_mat item_id (sm user_id)) 0 100)
    ∧ (specDen user_mat item_id (sm user_id) < eps α
        ∨ specCount user_mat item_id (sm user_id) ≤ 1 →
      predict_impl user_id item_id user_mat ga ua ia sm item_attr
        item_attr_rev false = -1) := by
  have hfold := neighborFold_spec user_mat item_id ga ua ia (sm user_id)
    (0, 0, 0)
  constructor
  · intro hden hcnt c
    unfold predict_impl
    dsimp only
    rw [hfold]
    have hcond : ¬ ((((0 : α) + specNum user_mat item_id ga ua ia (sm user_id),
        (0 : α) + specDen user_mat item_id (sm user_id),
        0 + specCount user_mat item_id (sm user_id)) :
          α × α × ℕ).2.1 < eps α
        ∨ (((0 : α) + specNum user_mat item_id ga ua ia (sm user_id),
        (0 : α) + specDen user_mat item_id (sm user_id),
        0 + specCount user_mat item_id (sm user_id)) :
          α × α × ℕ).2.2 ≤ 1) := by
      simp only [zero_add]
      push_neg
      exact ⟨hden, by omega⟩
    rw [if_neg hcond]
    simp only [zero_add]
  · intro h
    rw [predict_impl_false]
    unfold predict_base
    dsimp only
    rw [hfold]
    have hcond : ((((0 : α) + specNum user_mat item_id ga ua ia (sm user_id),
        (0 : α) + specDen user_mat item_id (sm user_id),
        0 + specCount user_mat item_id (sm user_id)) :
          α × α × ℕ).2.1 < eps α
        ∨ (((0 : α) + specNum user_mat item_id ga ua ia (sm user_id),
        (0 : α) + specDen user_mat item_id (sm user_id),
        0 + specCount user_mat item_id (sm user_id)) :
          α × α × ℕ).2.2 ≤ 1) := by
      simpa using h
    rw [if_pos hcond]

/-- C4 witness: a concrete `ℚ` instance with two contributing neighbors
(denominator `3/2`, count `2`) where the sufficient branch applies, and a
concrete insufficient instance (empty similarity list) where the `false`
flag yields the sentinel. -/
theorem predict_impl_neighbor_decision_witness :
    (eps ℚ ≤ specDen (SparseMatrix.ofItems [⟨5, 9, (4 : ℚ)⟩, ⟨6, 9, (2 : ℚ)⟩]) 9
        [(5, (1 : ℚ)), (6, (1/2 : ℚ))]
      ∧ 2 ≤ specCount (SparseMatrix.ofItems [⟨5, 9, (4 : ℚ)⟩, ⟨6, 9, (2 : ℚ)⟩]) 9
        [(5, (1 : ℚ)), (6, (1/2 : ℚ))])
    ∧ predict_impl 1 9 (SparseMatrix.ofItems [⟨5, 9, (4 : ℚ)⟩, ⟨6, 9, (2 : ℚ)⟩]) 2
        (fun _ => 2) (fun _ => 2) (fun _ => [(5, (1 : ℚ)), (6, (1/2 : ℚ))])
        (SparseMatrix.ofItems []) (SparseMatrix.ofItems []) true
      = clamp (2 + ((2 : ℚ) - 2) + ((2 : ℚ) - 2)
          + specNum (SparseMatrix.ofItems [⟨5, 9, (4 : ℚ)⟩, ⟨6, 9, (2 : ℚ)⟩]) 9 2
              (fun _ => 2) (fun _ => 2) [(5, (1 : ℚ)), (6, (1/2 : ℚ))]
            / specDen (SparseMatrix.ofItems [⟨5, 9, (4 : ℚ)⟩, ⟨6, 9, (2 : ℚ)⟩]) 9
              [(5, (1 : ℚ)), (6, (1/2 : ℚ))]) 0 100
    ∧ predict_impl 1 9 (SparseMatrix.ofItems [⟨5, 9, (4 : ℚ)⟩, ⟨6, 9, (2 : ℚ)⟩]) 2
        (fun _ => 2) (fun _ => 2) (fun _ => [])
        (SparseMatrix.ofItems []) (SparseMatrix.ofItems []) false = -1 := by
  have hden : specDen (SparseMatrix.ofItems [⟨5, 9, (4 : ℚ)⟩, ⟨6, 9, (2 : ℚ)⟩]) 9
      [(5, (1 : ℚ)), (6, (1/2 : ℚ))] = 3/2 := by
    simp +decide [specDen, contributingNeighbors, SparseMatrix.get,
      SparseMatrix.ofItems, sortLe, insertLe, itemLE, List.find?,
      List.filter_cons]
    norm_num [abs_of_nonneg]
  have h1 : eps ℚ ≤ specDen (SparseMatrix.ofItems [⟨5, 9, (4 : ℚ)⟩, ⟨6, 9, (2 : ℚ)⟩]) 9
      [(5, (1 : ℚ)), (6, (1/2 : ℚ))] := by
    rw [hden]
    norm_num [eps]
  have h2 : 2 ≤ specCount (SparseMatrix.ofItems [⟨5, 9, (4 : ℚ)⟩, ⟨6, 9, (2 : ℚ)⟩]) 9
      [(5, (1 : ℚ)), (6, (1/2 : ℚ))] := by
    simp +decide [specCount, contributingNeighbors, SparseMatrix.get,
      SparseMatrix.ofItems, sortLe, insertLe, itemLE, List.find?,
      List.filter_cons]
  refine ⟨⟨h1, h2⟩, ?_, ?_⟩
  · exact (predict_impl_neighbor_decision 1 9
      (SparseMatrix.ofItems [⟨5, 9, (4 : ℚ)⟩, ⟨6, 9, (2 : ℚ)⟩]) 2
      (fun _ => 2) (fun _ => 2) (fun _ => [(5, (1 : ℚ)), (6, (1/2 : ℚ))])
      (SparseMatrix.ofItems []) (SparseMatrix.ofItems [])).1 h1 h2 true
  · exact (predict_impl_neighbor_decision 1 9
      (SparseMatrix.ofItems [⟨5, 9, (4 : ℚ)⟩, ⟨6, 9, (2 : ℚ)⟩]) 2
      (fun _ => 2) (fun _ => 2) (fun _ => [])
      (SparseMatrix.ofItems []) (SparseMatrix.ofItems [])).2
      (Or.inr (by decide))

/-- The C++ helper `square(x) = x * x`. -/
def square {α : Type} [Mul α] (x : α) : α := x * x

/-- The two-pointer merge loop of `pearson` (src/main.cpp lines 254-285):
advance the pointer with the smaller column, accumulating into that row's
denominator only; on a column match accumulate into the numerator and both
denominators; the two trailing `while` loops drain whichever row remains.
The accumulator is `(numerator, denominator_x, denominator_y)`. -/
def pearsonAcc (avg_x avg_y : ℝ) :
    List (SMItem ℝ) → List (SMItem ℝ) → ℝ × ℝ × ℝ → ℝ × ℝ × ℝ
  | x :: xs, y :: ys, acc =>
      if x.col < y.col then
        pearsonAcc avg_x avg_y xs (y :: ys)
          (acc.1, acc.2.1 + square (x.val - avg_x), acc.2.2)
      else if y.col < x.col then
        pearsonAcc avg_x avg_y (x :: xs) ys
          (acc.1, acc.2.1, acc.2.2 + square (y.val - avg_y))
      else
        pearsonAcc avg_x avg_y xs ys
          (acc.1 + (x.val - avg_x) * (y.val - avg_y),
            acc.2.1 + square (x.val - avg_x),
            acc.2.2 + square (y.val - avg_y))
  | x :: xs, [], acc =>
      pearsonAcc avg_x avg_y xs []
        (acc.1, acc.2.1 + square (x.val - avg_x), acc.2.2)
  | [], y :: ys, acc =>
      pearsonAcc avg_x avg_y [] ys
        (acc.1, acc.2.1, acc.2.2 + square (y.val - avg_y))
  | [], [], acc => acc
termination_by xs ys _ => xs.length + ys.length

/-- `pearson` (src/main.cpp lines 247-291): run the merge loop on the two
row slices, then `numerator / sqrt(denominator_x * denominator_y)`, or `0`
when the square root is below machine epsilon in absolute value.  The
average cache (read with `.at`, so callers must cover both rows) is
modelled as a total function. -/
noncomputable def pearson (mat : SparseMatrix ℝ) (x y : ℕ)
    (avg_score : ℕ → ℝ) : ℝ :=
  let nds := pearsonAcc (avg_score x) (avg_score y)
    (mat.get_row x) (mat.get_row y) (0, 0, 0)
  let denominator := Real.sqrt (nds.2.1 * nds.2.2)
  if |denominator| < eps ℝ then 0 else nds.1 / denominator

/-- Specification-level Pearson numerator, written from the claim: the sum
over shared columns of `(x[c] - mux) * (y[c] - muy)` (for each entry of row
x, the matching entries of row y). -/
def pearsonNumSpec (avg_x avg_y : ℝ) (rx ry : List (SMItem ℝ)) : ℝ :=
  (rx.map (fun a => ((ry.filter (fun b => b.col == a.col)).map
    (fun b => (a.val - avg_x) * (b.val - avg_y))).sum)).sum

/-- Specification-level Pearson denominator term: the sum over ALL columns
of the row of the squared deviation from the row mean. -/
def pearsonDenSpec (avg : ℝ) (r : List (SMItem ℝ)) : ℝ :=
  (r.map (fun a => square (a.val - avg))).sum

theorem pearsonNumSpec_cons_left (ax ay : ℝ) (x : SMItem ℝ)
    (xs ys : List (SMItem ℝ)) :
    pearsonNumSpec ax ay (x :: xs) ys
    = ((ys.filter (fun b => b.col == x.col)).map
        (fun b => (x.val - ax) * (b.val - ay))).sum
      + pearsonNumSpec ax ay xs ys := by
  simp [pearsonNumSpec]

theorem pearsonNumSpec_skip_left (ax ay : ℝ) (x : SMItem ℝ)
    (xs ys : List (SMItem ℝ)) (h : ∀ b ∈ ys, ¬ b.col = x.col) :
    pearsonNumSpec ax ay (x :: xs) ys = pearsonNumSpec ax ay xs ys := by
  rw [pearsonNumSpec_cons_left]
  have hnil : ys.filter (fun b => b.col == x.col) = [] := by
    rw [List.filter_eq_nil_iff]
    intro b hb
    simpa using h b hb
  rw [hnil]
  simp

theorem pearsonNumSpec_skip_right (ax ay : ℝ) (y : SMItem ℝ)
    (xs ys : List (SMItem ℝ)) (h : ∀ a ∈ xs, ¬ y.col = a.col) :
    pearsonNumSpec ax ay xs (y :: ys) = pearsonNumSpec ax ay xs ys := by
  unfold pearsonNumSpec
  refine congrArg List.sum (List.map_congr_left ?_)
  intro a ha
  have hq : (y.col == a.col) = false := by
    simpa using h a ha
  simp [List.filter_cons, hq]

theorem pearsonNumSpec_match (ax ay : ℝ) (x y : SMItem ℝ)
    (xs ys : List (SMItem ℝ)) (hxy : x.col = y.col)
    (hys : ∀ b ∈ ys, y.col < b.col) :
    pearsonNumSpec ax ay (x :: xs) (y :: ys)
    = (x.val - ax) * (y.val - ay) + pearsonNumSpec ax ay xs (y :: ys) := by
  rw [pearsonNumSpec_cons_left]
  have h1 : (y :: ys).filter (fun b => b.col == x.col) = [y] := by
    rw [List.filter_cons]
    have hy : (y.col == x.col) = true := by simp [hxy]
    rw [if_pos (by simp [hxy])]
    have hnil : ys.filter (fun b => b.col == x.col) = [] := by
      rw [List.filter_eq_nil_iff]
      intro b hb
      have := hys b hb
      simp
      omega
    rw [hnil]
  rw [h1]
  simp

theorem pearsonDenSpec_cons (av : ℝ) (x : SMItem ℝ) (xs : List (SMItem ℝ)) :
    pearsonDenSpec av (x :: xs) = square (x.val - av) + pearsonDenSpec av xs := by
  simp [pearsonDenSpec]

theorem pearsonNumSpec_nil_right (ax ay : ℝ) (xs : List (SMItem ℝ)) :
    pearsonNumSpec ax ay xs [] = 0 := by
  induction xs with
  | nil => simp [pearsonNumSpec]
  | cons a l ih =>
    rw [pearsonNumSpec_cons_left]
    simp only [List.filter_nil, List.map_nil, List.sum_nil, zero_add]
    exact ih

theorem pearsonNumSpec_nil_left (ax ay : ℝ) (ys : List (SMItem ℝ)) :
    pearsonNumSpec ax ay [] ys = 0 := by
  simp [pearsonNumSpec]

/-- Correctness of the two-pointer sweep: on rows with strictly increasing
columns it computes exactly the claim's three sums (numerator over shared
columns, each denominator over all columns of its own row), on top of
whatever is already in the accumulator. -/
theorem pearsonAcc_spec (ax ay : ℝ) (xs ys : List (SMItem ℝ))
    (acc : ℝ × ℝ × ℝ) :
    xs.Pairwise (fun p q => p.col < q.col) →
    ys.Pairwise (fun p q => p.col < q.col) →
    pearsonAcc ax ay xs ys acc
    = (acc.1 + pearsonNumSpec ax ay xs ys,
        acc.2.1 + pearsonDenSpec ax xs,
        acc.2.2 + pearsonDenSpec ay ys) := by
  induction xs, ys, acc using pearsonAcc.induct ax ay with
  | case1 x xs y ys acc hlt ih =>
    intro hx hy
    simp only [pearsonAcc, if_pos hlt]
    rw [ih hx.of_cons hy]
    have hskip : pearsonNumSpec ax ay (x :: xs) (y :: ys)
        = pearsonNumSpec ax ay xs (y :: ys) := by
      refine pearsonNumSpec_skip_left ax ay x xs (y :: ys) ?_
      intro b hb
      rcases List.mem_cons.mp hb with rfl | hb
      · omega
      · have := (List.pairwise_cons.mp hy).1 b hb
        omega
    rw [hskip]
    simp only [pearsonDenSpec_cons, Prod.mk.injEq]
    refine ⟨by ring, by ring, by ring⟩
  | case2 x xs y ys acc hnlt hgt ih =>
    intro hx hy
    simp only [pearsonAcc, if_neg hnlt, if_pos hgt]
    rw [ih hx hy.of_cons]
    have hskip : pearsonNumSpec ax ay (x :: xs) (y :: ys)
        = pearsonNumSpec ax ay (x :: xs) ys := by
      refine pearsonNumSpec_skip_right ax ay y (x :: xs) ys ?_
      intro a ha
      rcases List.mem_cons.mp ha with rfl | ha
      · omega
      · have := (List.pairwise_cons.mp hx).1 a ha
        omega
    rw [hskip]
    simp only [pearsonDenSpec_cons, Prod.mk.injEq]
    refine ⟨by ring, by ring, by ring⟩
  | case3 x xs y ys acc hnlt hngt ih =>
    intro hx hy
    have hxy : x.col = y.col := by omega
    simp only [pearsonAcc, if_neg hnlt, if_neg hngt]
    rw [ih hx.of_cons hy.of_cons]
    have hmatch := pearsonNumSpec_match ax ay x y xs ys hxy
      (List.pairwise_cons.mp hy).1
    have hskip : pearsonNumSpec ax ay xs (y :: ys)
        = pearsonNumSpec ax ay xs ys := by
      refine pearsonNumSpec_skip_right ax ay y xs ys ?_
      intro a ha
      have := (List.pairwise_cons.mp hx).1 a ha
      omega
    rw [hmatch, hskip]
    simp only [pearsonDenSpec_cons, Prod.mk.injEq]
    refine ⟨by ring, by ring, by ring⟩
  | case4 x xs acc ih =>
    intro hx _
    simp only [pearsonAcc]
    rw [ih hx.of_cons List.Pairwise.nil]
    rw [pearsonNumSpec_nil_right, pearsonNumSpec_nil_right]
    simp only [pearsonDenSpec_cons, Prod.mk.injEq]
    refine ⟨by ring, by ring, by ring⟩
  | case5 y ys acc ih =>
    intro _ hy
    simp only [pearsonAcc]
    rw [ih List.Pairwise.nil hy.of_cons]
    rw [pearsonNumSpec_nil_left, pearsonNumSpec_nil_left]
    simp only [pearsonDenSpec_cons, Prod.mk.injEq]
    refine ⟨by ring, by ring, by ring⟩
  | case6 acc =>
    intro _ _
    simp [pearsonAcc, pearsonNumSpec_nil_left, pearsonDenSpec]

theorem get_row_sorted_col {α : Type} (mat : SparseMatrix α)
    (hs : List.Pairwise keyLT mat.items) (r : ℕ) :
    (mat.get_row r).Pairwise (fun p q => p.col < q.col) := by
  unfold SparseMatrix.get_row
  have h1 : (mat.items.filter (fun it => it.row == r)).Pairwise keyLT :=
    hs.filter _
  refine h1.imp_of_mem ?_
  intro a b ha hb hab
  have ha2 : a.row = r := by simpa using (List.mem_filter.mp ha).2
  have hb2 : b.row = r := by simpa using (List.mem_filter.mp hb).2
  rcases hab with h | h
  · omega
  · exact h.2

/-- C3: for distinct rows `x`, `y` of a matrix whose entries are strictly
sorted by `(row, col)` (the invariant of every constructed matrix with no
duplicate keys), `pearson` returns `N / sqrt(Dx * Dy)` — `N` summing over
shared columns, `Dx` and `Dy` each over ALL columns of its own row — and
`0` whenever that square root is below machine epsilon in absolute
value. -/
theorem pearson_formula (mat : SparseMatrix ℝ) (x y : ℕ) (avg_score : ℕ → ℝ)
    (hxy : x ≠ y) (hs : List.Pairwise keyLT mat.items) :
    pearson mat x y avg_score
    = if |Real.sqrt (pearsonDenSpec (avg_score x) (mat.get_row x)
          * pearsonDenSpec (avg_score y) (mat.get_row y))| < eps ℝ
      then 0
      else pearsonNumSpec (avg_score x) (avg_score y)
            (mat.get_row x) (mat.get_row y)
          / Real.sqrt (pearsonDenSpec (avg_score x) (mat.get_row x)
            * pearsonDenSpec (avg_score y) (mat.get_row y)) := by
  unfold pearson
  rw [pearsonAcc_spec (avg_score x) (avg_score y) (mat.get_row x)
    (mat.get_row y) (0, 0, 0) (get_row_sorted_col mat hs x)
    (get_row_sorted_col mat hs y)]
  simp only [zero_add]

/-- The merge loop is symmetric up to swapping the two denominator
accumulators (the numerator term commutes by commutativity of
multiplication). -/
theorem pearsonAcc_swap (ax ay : ℝ) (xs ys : List (SMItem ℝ))
    (acc : ℝ × ℝ × ℝ) :
    pearsonAcc ay ax ys xs (acc.1, acc.2.2, acc.2.1)
    = ((pearsonAcc ax ay xs ys acc).1,
        (pearsonAcc ax ay xs ys acc).2.2,
        (pearsonAcc ax ay xs ys acc).2.1) := by
  induction xs, ys, acc using pearsonAcc.induct ax ay with
  | case1 x xs y ys acc hlt ih =>
    have hnlt : ¬ y.col < x.col := by omega
    conv_lhs => rw [pearsonAcc]
    rw [if_neg hnlt, if_pos hlt]
    conv_rhs => rw [pearsonAcc]
    rw [if_pos hlt]
    exact ih
  | case2 x xs y ys acc hnlt hgt ih =>
    conv_lhs => rw [pearsonAcc]
    rw [if_pos hgt]
    conv_rhs => rw [pearsonAcc]
    rw [if_neg hnlt, if_pos hgt]
    exact ih
  | case3 x xs y ys acc hnlt hngt ih =>
    conv_lhs => rw [pearsonAcc]
    rw [if_neg hngt, if_neg hnlt]
    conv_rhs => rw [pearsonAcc]
    rw [if_neg hnlt, if_neg hngt]
    have hcomm : (y.val - ay) * (x.val - ax) = (x.val - ax) * (y.val - ay) :=
      mul_comm _ _
    rw [hcomm]
    exact ih
  | case4 x xs acc ih =>
    conv_lhs => rw [pearsonAcc]
    conv_rhs => rw [pearsonAcc]
    exact ih
  | case5 y ys acc ih =>
    conv_lhs => rw [pearsonAcc]
    conv_rhs => rw [pearsonAcc]
    exact ih
  | case6 acc => simp only [pearsonAcc]

/-- C7: the Pearson score is symmetric in its two row arguments, for every
matrix and every average cache. -/
theorem pearson_symm (mat : SparseMatrix ℝ) (x y : ℕ) (avg_score : ℕ → ℝ) :
    pearson mat x y avg_score = pearson mat y x avg_score := by
  unfold pearson
  rw [pearsonAcc_swap (avg_score x) (avg_score y) (mat.get_row x)
    (mat.get_row y) (0, 0, 0)]
  dsimp only
  rw [mul_comm]

/-- C3 witness: a concrete two-user matrix (users 1 and 2 rating items 0
and 1) with a concrete average cache, instantiating the formula theorem
with its distinctness and sortedness hypotheses discharged. -/
theorem pearson_formula_witness :
    ((1 : ℕ) ≠ 2
      ∧ List.Pairwise keyLT (SparseMatrix.ofItems
          [⟨1, 0, (1 : ℝ)⟩, ⟨1, 1, 3⟩, ⟨2, 0, 5⟩, ⟨2, 1, 7⟩]).items)
    ∧ pearson (SparseMatrix.ofItems
          [⟨1, 0, (1 : ℝ)⟩, ⟨1, 1, 3⟩, ⟨2, 0, 5⟩, ⟨2, 1, 7⟩]) 1 2
        (fun r => if r = 1 then 2 else 6)
      = if |Real.sqrt (pearsonDenSpec 2 ((SparseMatrix.ofItems
            [⟨1, 0, (1 : ℝ)⟩, ⟨1, 1, 3⟩, ⟨2, 0, 5⟩, ⟨2, 1, 7⟩]).get_row 1)
          * pearsonDenSpec 6 ((SparseMatrix.ofItems
            [⟨1, 0, (1 : ℝ)⟩, ⟨1, 1, 3⟩, ⟨2, 0, 5⟩, ⟨2, 1, 7⟩]).get_row 2))|
          < eps ℝ
        then 0
        else pearsonNumSpec 2 6
            ((SparseMatrix.ofItems
              [⟨1, 0, (1 : ℝ)⟩, ⟨1, 1, 3⟩, ⟨2, 0, 5⟩, ⟨2, 1, 7⟩]).get_row 1)
            ((SparseMatrix.ofItems
              [⟨1, 0, (1 : ℝ)⟩, ⟨1, 1, 3⟩, ⟨2, 0, 5⟩, ⟨2, 1, 7⟩]).get_row 2)
          / Real.sqrt (pearsonDenSpec 2 ((SparseMatrix.ofItems
              [⟨1, 0, (1 : ℝ)⟩, ⟨1, 1, 3⟩, ⟨2, 0, 5⟩, ⟨2, 1, 7⟩]).get_row 1)
            * pearsonDenSpec 6 ((SparseMatrix.ofItems
              [⟨1, 0, (1 : ℝ)⟩, ⟨1, 1, 3⟩, ⟨2, 0, 5⟩, ⟨2, 1, 7⟩]).get_row 2)) :=
  ⟨⟨by decide, by decide⟩,
    pearson_formula (SparseMatrix.ofItems
        [⟨1, 0, (1 : ℝ)⟩, ⟨1, 1, 3⟩, ⟨2, 0, 5⟩, ⟨2, 1, 7⟩]) 1 2
      (fun r => if r = 1 then 2 else 6) (by decide) (by decide)⟩

/-- `heap_compare` (src/main.cpp lines 300-303): `a.second > b.second`,
the comparator handed to the heap routines and the final sort. -/
noncomputable def heap_compare (a b : ℕ × ℝ) : Bool :=
  decide (a.2 > b.2)

/-- `update_top_k_score` (src/main.cpp lines 312-322).  The binary heap is
modelled extensionally by its element list: with `heap_compare` the
`std::push_heap`/`pop_heap` pair maintains a min-heap on the similarity,
so `front()` is an element of minimal similarity (`argmin`), `pop_heap`
followed by overwriting the back and `push_heap` replaces that minimum by
the new element, and a plain `push_heap` appends.  When the heap is "full"
with `k = 0` the C++ `front()` on an empty vector is undefined behaviour;
that unreachable case is a no-op here. -/
noncomputable def update_top_k_score (top_k : List (ℕ × ℝ)) (k : ℕ)
    (id : ℕ) (score : ℝ) : List (ℕ × ℝ) :=
  if top_k.length < k then top_k ++ [(id, score)]
  else
    match top_k.argmin Prod.snd with
    | none => top_k
    | some m => if m.2 < score then top_k.erase m ++ [(id, score)] else top_k

/-- The `i < j` double loop over row ids (src/main.cpp lines 357-373),
flattened into the list of ordered pairs it visits. -/
def allPairs {β : Type} : List β → List (β × β)
  | [] => []
  | x :: xs => xs.map (fun y => (x, y)) ++ allPairs xs

/-- One iteration of the pair loop of `get_top_k_similar_mat`: compute the
Pearson score of the pair and update both endpoints' top-k lists.  The
`std::map` of per-row lists is modelled as a function (every key is
pre-initialised to the empty list). -/
noncomputable def pairStep (mat : SparseMatrix ℝ) (k : ℕ) (avg : ℕ → ℝ)
    (f : ℕ → List (ℕ × ℝ)) (p : ℕ × ℕ) : ℕ → List (ℕ × ℝ) :=
  let score := pearson mat p.1 p.2 avg
  let f1 := Function.update f p.1 (update_top_k_score (f p.1) k p.2 score)
  Function.update f1 p.2 (update_top_k_score (f1 p.2) k p.1 score)

/-- `get_top_k_similar_mat` (src/main.cpp lines 331-382): run the pair
loop, then for each row convert its heap to a sequence.  `std::sort_heap`
with `heap_compare` sorts ascending for that comparator, which is
DESCENDING by similarity, and the subsequent `std::reverse` flips it, so
each stored neighbor list is ASCENDING by similarity.  The result is the
association list keyed by the row ids in ascending order (`std::map`
iteration order). -/
noncomputable def get_top_k_similar_mat (mat : SparseMatrix ℝ) (k : ℕ)
    (avg_score : ℕ → ℝ) : List (ℕ × List (ℕ × ℝ)) :=
  let row_ids := mat.row_indexes
  let f := (allPairs row_ids).foldl (pairStep mat k avg_score) (fun _ => [])
  row_ids.map (fun r => (r, (sortLe heap_compare (f r)).reverse))

/-- The candidates offered to row `r`'s top-k list by the pair loop, in
loop order: for a pair `(x, y)` with `r = x` the candidate `(y, score)`,
with `r = y` the candidate `(x, score)`. -/
noncomputable def rowCandidates (mat : SparseMatrix ℝ) (avg : ℕ → ℝ)
    (r : ℕ) (pairs : List (ℕ × ℕ)) : List (ℕ × ℝ) :=
  pairs.filterMap (fun p =>
    if r = p.1 then some (p.2, pearson mat p.1 p.2 avg)
    else if r = p.2 then some (p.1, pearson mat p.1 p.2 avg)
    else none)

theorem allPairs_ne {β : Type} (l : List β) (hl : l.Nodup) :
    ∀ p ∈ allPairs l, p.1 ≠ p.2 := by
  induction l with
  | nil => intro p hp; simp [allPairs] at hp
  | cons x xs ih =>
    intro p hp
    rcases List.mem_append.mp hp with hp | hp
    · rcases List.mem_map.mp hp with ⟨y, hy, rfl⟩
      intro hcon
      have hxy : x = y := hcon
      exact (List.nodup_cons.mp hl).1 (by rw [hxy]; exact hy)
    · exact ih (List.nodup_cons.mp hl).2 p hp

theorem pairStep_fold (mat : SparseMatrix ℝ) (k : ℕ) (avg : ℕ → ℝ)
    (pairs : List (ℕ × ℕ)) (hpairs : ∀ p ∈ pairs, p.1 ≠ p.2)
    (f : ℕ → List (ℕ × ℝ)) (r : ℕ) :
    (pairs.foldl (pairStep mat k avg) f) r
    = (rowCandidates mat avg r pairs).foldl
        (fun h c => update_top_k_score h k c.1 c.2) (f r) := by
  induction pairs generalizing f with
  | nil => simp [rowCandidates]
  | cons p ps ih =>
    rcases p with ⟨a, b⟩
    have hne : a ≠ b := by simpa using hpairs (a, b) (List.mem_cons_self _ ps)
    have hps : ∀ q ∈ ps, q.1 ≠ q.2 :=
      fun q hq => hpairs q (List.mem_cons_of_mem _ hq)
    simp only [List.foldl_cons]
    rw [ih hps]
    have happ : ∀ x, pairStep mat k avg f (a, b) x
        = if x = b then
            update_top_k_score (f b) k a (pearson mat a b avg)
          else if x = a then
            update_top_k_score (f a) k b (pearson mat a b avg)
          else f x := by
      intro x
      simp only [pairStep, Function.update_apply]
      by_cases hxb : x = b
      · simp [hxb, Ne.symm hne]
      · simp [hxb]
    have hcands : rowCandidates mat avg r ((a, b) :: ps)
        = (if r = a then [(b, pearson mat a b avg)]
            else if r = b then [(a, pearson mat a b avg)]
            else [])
          ++ rowCandidates mat avg r ps := by
      unfold rowCandidates
      rw [List.filterMap_cons]
      by_cases h1 : r = a
      · simp [h1]
      · by_cases h2 : r = b
        · simp [h1, h2, Ne.symm hne]
        · simp [h1, h2]
    rw [happ r, hcands]
    by_cases h1 : r = a
    · have hrb : ¬ r = b := by rw [h1]; exact hne
      rw [if_neg hrb, if_pos h1, if_pos h1, h1]
      simp
    · by_cases h2 : r = b
      · rw [if_pos h2, if_neg h1, if_pos h2, h2]
        simp
      · rw [if_neg h2, if_neg h1, if_neg h1, if_neg h2]
        simp

theorem perm_cons_erase_beq {α : Type} [BEq α] [LawfulBEq α] {a : α}
    {l : List α} (h : a ∈ l) : l.Perm (a :: l.erase a) := by
  induction l with
  | nil => simp at h
  | cons b l ih =>
    rw [List.erase_cons]
    by_cases hb : (b == a) = true
    · rw [if_pos hb, eq_of_beq hb]
    · rw [if_neg hb]
      have hal : a ∈ l := by
        rcases List.mem_cons.mp h with rfl | h2
        · simp at hb
        · exact h2
      exact ((ih hal).cons b).trans (List.Perm.swap a b (l.erase a))

theorem length_erase_of_mem_beq {α : Type} [BEq α] [LawfulBEq α] {a : α}
    {l : List α} (h : a ∈ l) : (l.erase a).length = l.length - 1 := by
  have hlen := (perm_cons_erase_beq h).length_eq
  simp only [List.length_cons] at hlen
  omega

theorem mem_of_mem_erase_beq {α : Type} [BEq α] [LawfulBEq α] {a b : α}
    {l : List α} (h : a ∈ l.erase b) : a ∈ l :=
  (List.erase_sublist b l).subset h

/-- Behaviour of the bounded top-k selection over a whole candidate
stream, starting from the empty heap: the retained list together with some
list of dropped candidates is a permutation (multiset equality) of all
candidates, the retained list has exactly `min k (number of candidates)`
elements, and every dropped candidate scores no higher than every retained
one — i.e. the retained elements are `k` highest-scoring candidates. -/
theorem update_fold_topk (k : ℕ) (cands : List (ℕ × ℝ)) :
    ∃ dropped : List (ℕ × ℝ),
      ((cands.foldl (fun h c => update_top_k_score h k c.1 c.2) [] :
          List (ℕ × ℝ)) : Multiset (ℕ × ℝ)) + (dropped : Multiset (ℕ × ℝ))
        = (cands : Multiset (ℕ × ℝ))
      ∧ (cands.foldl (fun h c => update_top_k_score h k c.1 c.2) []).length
          = min k cands.length
      ∧ ∀ b ∈ dropped,
          ∀ a ∈ cands.foldl (fun h c => update_top_k_score h k c.1 c.2) [],
            b.2 ≤ a.2 := by
  induction cands using List.reverseRecOn with
  | nil => exact ⟨[], by simp, by simp, by simp⟩
  | append_singleton cs c ih =>
    rcases ih with ⟨D, hms, hlen, hdom⟩
    simp only [List.foldl_append, List.foldl_cons, List.foldl_nil]
    set F := cs.foldl (fun h c => update_top_k_score h k c.1 c.2) [] with hFdef
    clear_value F
    unfold update_top_k_score
    by_cases hfull : F.length < k
    · have hcard := congrArg Multiset.card hms
      simp only [Multiset.card_add, Multiset.coe_card] at hcard
      have hD : D = [] := List.length_eq_zero.mp (by omega)
      subst hD
      rw [if_pos hfull]
      refine ⟨[], ?_, ?_, by simp⟩
      · have hFcs : (↑F : Multiset (ℕ × ℝ)) = ↑cs := by simpa using hms
        show (↑(F ++ [(c.1, c.2)]) : Multiset (ℕ × ℝ)) + ↑([] : List (ℕ × ℝ))
          = (↑(cs ++ [c]) : Multiset (ℕ × ℝ))
        have h1 : (↑(F ++ [(c.1, c.2)]) : Multiset (ℕ × ℝ))
            = ↑F + ↑([(c.1, c.2)] : List (ℕ × ℝ)) := rfl
        have h2 : (↑(cs ++ [c]) : Multiset (ℕ × ℝ))
            = ↑cs + ↑([c] : List (ℕ × ℝ)) := rfl
        rw [h1, h2, hFcs]
        simp
      · simp only [List.length_append, List.length_singleton]
        omega
    · rcases hA : F.argmin Prod.snd with _ | m
      · have hFnil : F = [] := List.argmin_eq_none.mp hA
        rw [if_neg hfull]
        have hk : k = 0 := by
          rw [hFnil] at hfull
          simpa using hfull
        have hDcs : (↑D : Multiset (ℕ × ℝ)) = ↑cs := by
          rw [hFnil] at hms
          simpa using hms
        refine ⟨c :: D, ?_, ?_, ?_⟩
        · show (↑F : Multiset (ℕ × ℝ)) + ↑(c :: D)
            = (↑(cs ++ [c]) : Multiset (ℕ × ℝ))
          have h2 : (↑(cs ++ [c]) : Multiset (ℕ × ℝ))
              = ↑cs + ↑([c] : List (ℕ × ℝ)) := rfl
          rw [hFnil, h2, ← hDcs]
          show (0 : Multiset (ℕ × ℝ)) + (c ::ₘ ↑D) = ↑D + {c}
          rw [zero_add, ← Multiset.singleton_add, add_comm]
        · show F.length = min k (cs ++ [c]).length
          rw [hFnil, hk]
          simp
        · intro b _ a ha
          show b.2 ≤ a.2
          rw [hFnil] at ha
          simp at ha
      · have hmF : m ∈ F := List.argmin_mem hA
        have hmin : ∀ a ∈ F, m.2 ≤ a.2 := fun a ha =>
          List.le_of_mem_argmin ha (Option.mem_def.mpr hA)
        have hFk : F.length = k := by omega
        have hkcs : k ≤ cs.length := by omega
        rw [if_neg hfull]
        by_cases hlt2 : m.2 < c.2
        · show ∃ dropped : List (ℕ × ℝ),
              (↑(if m.2 < c.2 then F.erase m ++ [(c.1, c.2)] else F) :
                Multiset (ℕ × ℝ)) + ↑dropped = ↑(cs ++ [c])
            ∧ (if m.2 < c.2 then F.erase m ++ [(c.1, c.2)] else F).length
                = min k (cs ++ [c]).length
            ∧ ∀ b ∈ dropped,
                ∀ a ∈ (if m.2 < c.2 then F.erase m ++ [(c.1, c.2)] else F),
                  b.2 ≤ a.2
          rw [if_pos hlt2]
          have hFm : (↑F : Multiset (ℕ × ℝ)) = m ::ₘ ↑(F.erase m) :=
            Multiset.coe_eq_coe.mpr (perm_cons_erase_beq hmF)
          refine ⟨m :: D, ?_, ?_, ?_⟩
          · have h1 : (↑(F.erase m ++ [(c.1, c.2)]) : Multiset (ℕ × ℝ))
                = ↑(F.erase m) + ↑([(c.1, c.2)] : List (ℕ × ℝ)) := rfl
            have h2 : (↑(cs ++ [c]) : Multiset (ℕ × ℝ))
                = ↑cs + ↑([c] : List (ℕ × ℝ)) := rfl
            rw [h1, h2, ← hms, hFm]
            show ↑(F.erase m) + {(c.1, c.2)} + (m ::ₘ ↑D)
              = m ::ₘ ↑(F.erase m) + ↑D + {c}
            rw [Prod.mk.eta, ← Multiset.singleton_add, ← Multiset.singleton_add]
            abel
          · have hFpos : 0 < F.length := List.length_pos_of_mem hmF
            simp only [List.length_append, List.length_singleton,
              length_erase_of_mem_beq hmF]
            omega
          · intro b hb a ha
            rcases List.mem_cons.mp hb with rfl | hb
            · rcases List.mem_append.mp ha with ha | ha
              · exact hmin a (mem_of_mem_erase_beq ha)
              · have hac : a = (c.1, c.2) := List.mem_singleton.mp ha
                rw [hac]
                exact le_of_lt hlt2
            · rcases List.mem_append.mp ha with ha | ha
              · exact hdom b hb a (mem_of_mem_erase_beq ha)
              · have hac : a = (c.1, c.2) := List.mem_singleton.mp ha
                rw [hac]
                exact le_trans (hdom b hb m hmF) (le_of_lt hlt2)
        · show ∃ dropped : List (ℕ × ℝ),
              (↑(if m.2 < c.2 then F.erase m ++ [(c.1, c.2)] else F) :
                Multiset (ℕ × ℝ)) + ↑dropped = ↑(cs ++ [c])
            ∧ (if m.2 < c.2 then F.erase m ++ [(c.1, c.2)] else F).length
                = min k (cs ++ [c]).length
            ∧ ∀ b ∈ dropped,
                ∀ a ∈ (if m.2 < c.2 then F.erase m ++ [(c.1, c.2)] else F),
                  b.2 ≤ a.2
          rw [if_neg hlt2]
          refine ⟨c :: D, ?_, ?_, ?_⟩
          · have h2 : (↑(cs ++ [c]) : Multiset (ℕ × ℝ))
                = ↑cs + ↑([c] : List (ℕ × ℝ)) := rfl
            rw [h2, ← hms]
            show ↑F + (c ::ₘ ↑D) = ↑F + ↑D + {c}
            rw [← Multiset.singleton_add]
            abel
          · simp only [List.length_append, List.length_singleton]
            omega
          · intro b hb a ha
            rcases List.mem_cons.mp hb with rfl | hb
            · exact le_trans (not_lt.mp hlt2) (hmin a ha)
            · exact hdom b hb a ha

theorem pairwise_insertLe_rel {β : Type} {le : β → β → Bool}
    {R : β → β → Prop} (hT : Transitive R)
    (htrue : ∀ a b, le a b = true → R a b)
    (hfalse : ∀ a b, ¬ le a b = true → R b a) (a : β) (l : List β)
    (h : l.Pairwise R) : (insertLe le a l).Pairwise R := by
  induction l with
  | nil => simp [insertLe]
  | cons b l ih =>
    rcases List.pairwise_cons.mp h with ⟨hb, hl⟩
    by_cases hab : le a b = true
    · simp only [insertLe, if_pos hab]
      refine List.pairwise_cons.mpr ⟨?_, h⟩
      intro x hx
      rcases List.mem_cons.mp hx with rfl | hx
      · exact htrue a x hab
      · exact hT (htrue a b hab) (hb x hx)
    · simp only [insertLe, if_neg hab]
      refine List.pairwise_cons.mpr ⟨?_, ih hl⟩
      intro x hx
      rcases List.mem_cons.mp ((insertLe_perm le a l).mem_iff.mp hx) with h1 | h1
      · rw [h1]
        exact hfalse a b hab
      · exact hb x h1

theorem pairwise_sortLe_rel {β : Type} {le : β → β → Bool}
    {R : β → β → Prop} (hT : Transitive R)
    (htrue : ∀ a b, le a b = true → R a b)
    (hfalse : ∀ a b, ¬ le a b = true → R b a) (l : List β) :
    (sortLe le l).Pairwise R := by
  induction l with
  | nil => simp [sortLe]
  | cons a l ih => exact pairwise_insertLe_rel hT htrue hfalse a _ ih

/-- After `sort_heap` (descending by similarity for `heap_compare`) and
`std::reverse`, a neighbor list is sorted ascending by similarity. -/
theorem final_sorted_asc (l : List (ℕ × ℝ)) :
    ((sortLe heap_compare l).reverse).Pairwise (fun a b => a.2 ≤ b.2) := by
  rw [List.pairwise_reverse]
  refine pairwise_sortLe_rel ?_ ?_ ?_ l
  · intro a b c hab hbc
    exact le_trans hbc hab
  · intro a b hab
    simp only [heap_compare, decide_eq_true_eq] at hab
    exact le_of_lt hab
  · intro a b hab
    simp only [heap_compare, decide_eq_true_eq] at hab
    exact not_lt.mp hab

theorem mem_get_top_k (mat : SparseMatrix ℝ) (k : ℕ) (avg : ℕ → ℝ)
    {r : ℕ} {l : List (ℕ × ℝ)}
    (h : (r, l) ∈ get_top_k_similar_mat mat k avg) :
    r ∈ mat.row_indexes
    ∧ l = (sortLe heap_compare
        (((allPairs mat.row_indexes).foldl (pairStep mat k avg)
          (fun _ => [])) r)).reverse := by
  unfold get_top_k_similar_mat at h
  simp only [List.mem_map] at h
  rcases h with ⟨a, ha, heq⟩
  have hr : a = r := congrArg Prod.fst heq
  have hl : l = (sortLe heap_compare
      (((allPairs mat.row_indexes).foldl (pairStep mat k avg)
        (fun _ => [])) a)).reverse := (congrArg Prod.snd heq).symm
  subst hr
  exact ⟨ha, hl⟩

/-- C5 amended: every neighbor list produced by `get_top_k_similar_mat`
has length at most `K` (exactly `min K (number of candidate pairs seen for
that row)`), is sorted ASCENDING by similarity (the claim says descending:
`sort_heap` with `heap_compare` produces the descending order and the
subsequent `std::reverse` flips it), and its members are `K`
highest-scoring candidates seen for that row: together with the dropped
candidates they form exactly the candidate multiset, and every dropped
candidate scores no higher than every retained one. -/
theorem get_top_k_lists_spec (mat : SparseMatrix ℝ) (k : ℕ) (avg : ℕ → ℝ)
    (r : ℕ) (l : List (ℕ × ℝ))
    (h : (r, l) ∈ get_top_k_similar_mat mat k avg) :
    l.length ≤ k
    ∧ l.length
        = min k (rowCandidates mat avg r (allPairs mat.row_indexes)).length
    ∧ l.Pairwise (fun a b => a.2 ≤ b.2)
    ∧ ∃ dropped : List (ℕ × ℝ),
        ((l : Multiset (ℕ × ℝ)) + (dropped : Multiset (ℕ × ℝ))
          = ↑(rowCandidates mat avg r (allPairs mat.row_indexes)))
        ∧ ∀ b ∈ dropped, ∀ a ∈ l, b.2 ≤ a.2 := by
  rcases mem_get_top_k mat k avg h with ⟨_, hl⟩
  have hfold := pairStep_fold mat k avg (allPairs mat.row_indexes)
    (allPairs_ne mat.row_indexes (row_indexes_nodup mat)) (fun _ => []) r
  rcases update_fold_topk k
      (rowCandidates mat avg r (allPairs mat.row_indexes)) with
    ⟨D, hms, hlen, hdom⟩
  have hperm : l.Perm ((allPairs mat.row_indexes).foldl
      (pairStep mat k avg) (fun _ => []) r) := by
    rw [hl]
    exact (List.reverse_perm _).trans (sortLe_perm _ _)
  rw [hfold] at hperm
  have hlcoe : (↑l : Multiset (ℕ × ℝ))
      = ↑((rowCandidates mat avg r (allPairs mat.row_indexes)).foldl
          (fun h c => update_top_k_score h k c.1 c.2) []) :=
    Multiset.coe_eq_coe.mpr hperm
  have hlenl : l.length
      = ((rowCandidates mat avg r (allPairs mat.row_indexes)).foldl
          (fun h c => update_top_k_score h k c.1 c.2) []).length :=
    hperm.length_eq
  refine ⟨?_, ?_, ?_, D, ?_, ?_⟩
  · omega
  · omega
  · rw [hl]
    exact final_sorted_asc _
  · rw [hlcoe]
    exact hms
  · intro b hb a ha
    exact hdom b hb a (hperm.mem_iff.mp ha)

theorem allPairs_short {β : Type} (l : List β) (h : l.length < 2) :
    allPairs l = [] := by
  rcases l with _ | ⟨x, _ | ⟨y, t⟩⟩
  · rfl
  · simp [allPairs]
  · simp only [List.length_cons] at h
    omega

/-- C6 amended: for a matrix with fewer than 2 rows the pair loop runs
zero times, so the neighbor map carries one key per row (the map is
pre-initialised with every row id) and every neighbor LIST is empty; the
map itself is empty only for a matrix with zero rows, not for one row. -/
theorem get_top_k_small_matrix (mat : SparseMatrix ℝ) (k : ℕ)
    (avg : ℕ → ℝ) (h : mat.row_indexes.length < 2) :
    get_top_k_similar_mat mat k avg
      = mat.row_indexes.map (fun r => (r, [])) := by
  unfold get_top_k_similar_mat
  dsimp only
  rw [allPairs_short _ h]
  simp [sortLe]

/-- C6 counterexample: the one-row matrix with the single entry
`(7, 1, 5)` yields the neighbor map `[(7, [])]` — one key with an empty
list — which is NOT the empty map the claim asserts. -/
theorem get_top_k_small_matrix_cex :
    get_top_k_similar_mat (SparseMatrix.ofItems [⟨7, 1, (5 : ℝ)⟩]) 3
        (fun _ => 0)
      = [(7, [])]
    ∧ ([((7 : ℕ), ([] : List (ℕ × ℝ)))] : List (ℕ × List (ℕ × ℝ))) ≠ [] := by
  constructor
  · unfold get_top_k_similar_mat
    dsimp only
    have hrow : (SparseMatrix.ofItems [⟨7, 1, (5 : ℝ)⟩]).row_indexes = [7] :=
      rfl
    rw [hrow]
    rw [show allPairs [7] = ([] : List (ℕ × ℕ)) from rfl]
    simp [sortLe]
  · simp

/-- C6 witness: the amended theorem applied to the same one-row matrix. -/
theorem get_top_k_small_matrix_witness :
    (SparseMatrix.ofItems [⟨7, 1, (5 : ℝ)⟩]).row_indexes.length < 2
    ∧ get_top_k_similar_mat (SparseMatrix.ofItems [⟨7, 1, (5 : ℝ)⟩]) 3
        (fun _ => 0)
      = (SparseMatrix.ofItems [⟨7, 1, (5 : ℝ)⟩]).row_indexes.map
          (fun r => (r, [])) :=
  ⟨by decide, get_top_k_small_matrix (SparseMatrix.ofItems [⟨7, 1, (5 : ℝ)⟩])
    3 (fun _ => 0) (by decide)⟩

/-- C5 counterexample: a three-user matrix (users 1, 2 rate item 0 with
values 3 and 4; user 3 rates item 5) with `K = 2` and the zero average
cache.  User 1's neighbor list comes out as `[(3, 0), (2, 1)]` — sorted
ASCENDING by similarity — which is not "sorted descending" as the claim
states (its first score 0 is below its second score 1). -/
theorem get_top_k_lists_cex :
    ((1 : ℕ), [((3 : ℕ), (0 : ℝ)), (2, 1)])
      ∈ get_top_k_similar_mat
          (SparseMatrix.ofItems [⟨1, 0, (3 : ℝ)⟩, ⟨2, 0, 4⟩, ⟨3, 5, 1⟩]) 2
          (fun _ => 0)
    ∧ ¬ List.Pairwise (fun a b : ℕ × ℝ => b.2 ≤ a.2)
        [((3 : ℕ), (0 : ℝ)), (2, 1)] := by
  constructor
  · have hrow1 : (SparseMatrix.ofItems
        [⟨1, 0, (3 : ℝ)⟩, ⟨2, 0, 4⟩, ⟨3, 5, 1⟩]).get_row 1
        = [⟨1, 0, (3 : ℝ)⟩] := rfl
    have hrow2 : (SparseMatrix.ofItems
        [⟨1, 0, (3 : ℝ)⟩, ⟨2, 0, 4⟩, ⟨3, 5, 1⟩]).get_row 2
        = [⟨2, 0, (4 : ℝ)⟩] := rfl
    have hrow3 : (SparseMatrix.ofItems
        [⟨1, 0, (3 : ℝ)⟩, ⟨2, 0, 4⟩, ⟨3, 5, 1⟩]).get_row 3
        = [⟨3, 5, (1 : ℝ)⟩] := rfl
    have hp12 : pearson (SparseMatrix.ofItems
        [⟨1, 0, (3 : ℝ)⟩, ⟨2, 0, 4⟩, ⟨3, 5, 1⟩]) 1 2 (fun _ => 0) = 1 := by
      unfold pearson
      dsimp only
      rw [hrow1, hrow2]
      have hacc : pearsonAcc 0 0 [⟨1, 0, (3 : ℝ)⟩] [⟨2, 0, (4 : ℝ)⟩]
          (0, 0, 0) = (12, 9, 16) := by
        simp +decide [pearsonAcc, square]
        norm_num
      rw [hacc]
      have h144 : ((12 : ℝ), (9 : ℝ), (16 : ℝ)).2.1
          * ((12 : ℝ), (9 : ℝ), (16 : ℝ)).2.2 = ((12 : ℝ)) ^ 2 := by
        norm_num
      rw [h144, Real.sqrt_sq (by norm_num : (0 : ℝ) ≤ 12)]
      have habs : ¬ |(12 : ℝ)| < eps ℝ := by
        rw [abs_of_nonneg (by norm_num : (0 : ℝ) ≤ 12)]
        norm_num [eps]
      rw [if_neg habs]
      norm_num
    have hp13 : pearson (SparseMatrix.ofItems
        [⟨1, 0, (3 : ℝ)⟩, ⟨2, 0, 4⟩, ⟨3, 5, 1⟩]) 1 3 (fun _ => 0) = 0 := by
      unfold pearson
      dsimp only
      rw [hrow1, hrow3]
      have hacc : pearsonAcc 0 0 [⟨1, 0, (3 : ℝ)⟩] [⟨3, 5, (1 : ℝ)⟩]
          (0, 0, 0) = (0, 9, 1) := by
        simp +decide [pearsonAcc, square]
        norm_num
      rw [hacc]
      have h9 : ((0 : ℝ), (9 : ℝ), (1 : ℝ)).2.1
          * ((0 : ℝ), (9 : ℝ), (1 : ℝ)).2.2 = ((3 : ℝ)) ^ 2 := by
        norm_num
      rw [h9, Real.sqrt_sq (by norm_num : (0 : ℝ) ≤ 3)]
      have habs : ¬ |(3 : ℝ)| < eps ℝ := by
        rw [abs_of_nonneg (by norm_num : (0 : ℝ) ≤ 3)]
        norm_num [eps]
      rw [if_neg habs]
      norm_num
    have hp23 : pearson (SparseMatrix.ofItems
        [⟨1, 0, (3 : ℝ)⟩, ⟨2, 0, 4⟩, ⟨3, 5, 1⟩]) 2 3 (fun _ => 0) = 0 := by
      unfold pearson
      dsimp only
      rw [hrow2, hrow3]
      have hacc : pearsonAcc 0 0 [⟨2, 0, (4 : ℝ)⟩] [⟨3, 5, (1 : ℝ)⟩]
          (0, 0, 0) = (0, 16, 1) := by
        simp +decide [pearsonAcc, square]
        norm_num
      rw [hacc]
      have h16 : ((0 : ℝ), (16 : ℝ), (1 : ℝ)).2.1
          * ((0 : ℝ), (16 : ℝ), (1 : ℝ)).2.2 = ((4 : ℝ)) ^ 2 := by
        norm_num
      rw [h16, Real.sqrt_sq (by norm_num : (0 : ℝ) ≤ 4)]
      have habs : ¬ |(4 : ℝ)| < eps ℝ := by
        rw [abs_of_nonneg (by norm_num : (0 : ℝ) ≤ 4)]
        norm_num [eps]
      rw [if_neg habs]
      norm_num
    unfold get_top_k_similar_mat
    dsimp only
    have hids : (SparseMatrix.ofItems
        [⟨1, 0, (3 : ℝ)⟩, ⟨2, 0, 4⟩, ⟨3, 5, 1⟩]).row_indexes = [1, 2, 3] :=
      rfl
    rw [hids]
    rw [show allPairs [(1 : ℕ), 2, 3]
      = [((1 : ℕ), (2 : ℕ)), (1, 3), (2, 3)] from rfl]
    simp only [List.foldl_cons, List.foldl_nil]
    refine List.mem_map.mpr ⟨1, by simp, ?_⟩
    have hfold1 : (pairStep (SparseMatrix.ofItems
          [⟨1, 0, (3 : ℝ)⟩, ⟨2, 0, 4⟩, ⟨3, 5, 1⟩]) 2 (fun _ => 0)
        (pairStep (SparseMatrix.ofItems
          [⟨1, 0, (3 : ℝ)⟩, ⟨2, 0, 4⟩, ⟨3, 5, 1⟩]) 2 (fun _ => 0)
        (pairStep (SparseMatrix.ofItems
          [⟨1, 0, (3 : ℝ)⟩, ⟨2, 0, 4⟩, ⟨3, 5, 1⟩]) 2 (fun _ => 0)
          (fun _ => []) (1, 2)) (1, 3)) (2, 3)) 1
        = [((2 : ℕ), (1 : ℝ)), (3, 0)] := by
      simp only [pairStep, Function.update_apply, hp12, hp13, hp23]
      simp +decide [update_top_k_score]
    rw [hfold1]
    have hc1 : heap_compare ((2 : ℕ), (1 : ℝ)) ((3 : ℕ), (0 : ℝ)) = true := by
      simp only [heap_compare, decide_eq_true_eq]
      norm_num
    simp [sortLe, insertLe, hc1]
  · intro hcon
    have := (List.pairwise_cons.mp hcon).1 (2, 1) (List.mem_cons_self _ _)
    norm_num at this

/-- C5 witness: a two-user matrix with `K = 1`; user 1's neighbor list is
`[(2, 1)]`, and the amended theorem applied to it bounds its length by
`K`. -/
theorem get_top_k_lists_spec_witness :
    (((1 : ℕ), [((2 : ℕ), (1 : ℝ))])
      ∈ get_top_k_similar_mat
          (SparseMatrix.ofItems [⟨1, 0, (3 : ℝ)⟩, ⟨2, 0, 4⟩]) 1
          (fun _ => 0))
    ∧ [((2 : ℕ), (1 : ℝ))].length ≤ 1 := by
  have hrow1 : (SparseMatrix.ofItems
      [⟨1, 0, (3 : ℝ)⟩, ⟨2, 0, 4⟩]).get_row 1 = [⟨1, 0, (3 : ℝ)⟩] := rfl
  have hrow2 : (SparseMatrix.ofItems
      [⟨1, 0, (3 : ℝ)⟩, ⟨2, 0, 4⟩]).get_row 2 = [⟨2, 0, (4 : ℝ)⟩] := rfl
  have hp12 : pearson (SparseMatrix.ofItems
      [⟨1, 0, (3 : ℝ)⟩, ⟨2, 0, 4⟩]) 1 2 (fun _ => 0) = 1 := by
    unfold pearson
    dsimp only
    rw [hrow1, hrow2]
    have hacc : pearsonAcc 0 0 [⟨1, 0, (3 : ℝ)⟩] [⟨2, 0, (4 : ℝ)⟩]
        (0, 0, 0) = (12, 9, 16) := by
      simp +decide [pearsonAcc, square]
      norm_num
    rw [hacc]
    have h144 : ((12 : ℝ), (9 : ℝ), (16 : ℝ)).2.1
        * ((12 : ℝ), (9 : ℝ), (16 : ℝ)).2.2 = ((12 : ℝ)) ^ 2 := by
      norm_num
    rw [h144, Real.sqrt_sq (by norm_num : (0 : ℝ) ≤ 12)]
    have habs : ¬ |(12 : ℝ)| < eps ℝ := by
      rw [abs_of_nonneg (by norm_num : (0 : ℝ) ≤ 12)]
      norm_num [eps]
    rw [if_neg habs]
    norm_num
  have hmem : ((1 : ℕ), [((2 : ℕ), (1 : ℝ))])
      ∈ get_top_k_similar_mat
          (SparseMatrix.ofItems [⟨1, 0, (3 : ℝ)⟩, ⟨2, 0, 4⟩]) 1
          (fun _ => 0) := by
    unfold get_top_k_similar_mat
    dsimp only
    have hids : (SparseMatrix.ofItems
        [⟨1, 0, (3 : ℝ)⟩, ⟨2, 0, 4⟩]).row_indexes = [1, 2] := rfl
    rw [hids]
    rw [show allPairs [(1 : ℕ), 2] = [((1 : ℕ), (2 : ℕ))] from rfl]
    simp only [List.foldl_cons, List.foldl_nil]
    refine List.mem_map.mpr ⟨1, by simp, ?_⟩
    have hfold1 : (pairStep (SparseMatrix.ofItems
          [⟨1, 0, (3 : ℝ)⟩, ⟨2, 0, 4⟩]) 1 (fun _ => 0)
          (fun _ => []) (1, 2)) 1
        = [((2 : ℕ), (1 : ℝ))] := by
      simp only [pairStep, Function.update_apply, hp12]
      simp +decide [update_top_k_score]
    rw [hfold1]
    simp [sortLe, insertLe]
  exact ⟨hmem, (get_top_k_lists_spec
    (SparseMatrix.ofItems [⟨1, 0, (3 : ℝ)⟩, ⟨2, 0, 4⟩]) 1 (fun _ => 0)
    1 [((2 : ℕ), (1 : ℝ))] hmem).1⟩

/-- The `(row, col)` key of an entry. -/
def itemKey {α : Type} (it : SMItem α) : ℕ × ℕ :=
  (it.row, it.col)

/-- The element-wise loop of `RMSE` (src/main.cpp lines 628-636): walk both
sorted entry vectors in lockstep; throw on the first `(row, col)` key
mismatch, otherwise accumulate the squared value differences.  Addition is
accumulated tail-first here; exact field addition commutes, so the sum is
the loop's sum.  The catch-all arm is unreachable under the length guard
of `RMSE`. -/
def rmseLoop : List (SMItem ℝ) → List (SMItem ℝ) → Except String ℝ
  | [], [] => Except.ok 0
  | a :: as, b :: bs =>
      if a.row ≠ b.row ∨ a.col ≠ b.col then
        Except.error ("RMSE row or col not equal")
      else
        match rmseLoop as bs with
        | Except.error e => Except.error e
        | Except.ok s => Except.ok (square (a.val - b.val) + s)
  | _, _ => Except.error ("RMSE size not equal")

/-- `RMSE` (src/main.cpp lines 615-639): fatal on an entry-count mismatch,
fatal on a key mismatch, otherwise the square root of the mean squared
value difference. -/
noncomputable def RMSE (mat1 mat2 : SparseMatrix ℝ) : Except String ℝ :=
  if mat1.get_all.length ≠ mat2.get_all.length then
    Except.error ("RMSE size not equal")
  else
    match rmseLoop mat1.get_all mat2.get_all with
    | Except.error e => Except.error e
    | Except.ok sum =>
        Except.ok (Real.sqrt (sum / (mat1.get_all.length : ℝ)))

theorem rmseLoop_ok (l1 l2 : List (SMItem ℝ))
    (hkeys : l1.map itemKey = l2.map itemKey) :
    rmseLoop l1 l2 = Except.ok
      (((l1.zip l2).map (fun p => square (p.1.val - p.2.val))).sum) := by
  induction l1 generalizing l2 with
  | nil =>
    cases l2 with
    | nil => simp [rmseLoop]
    | cons b bs => simp at hkeys
  | cons a as ih =>
    cases l2 with
    | nil => simp at hkeys
    | cons b bs =>
      simp only [List.map_cons, List.cons.injEq] at hkeys
      rcases hkeys with ⟨hk, hks⟩
      have hrow : a.row = b.row := congrArg Prod.fst hk
      have hcol : a.col = b.col := congrArg Prod.snd hk
      rw [rmseLoop]
      rw [if_neg (by push_neg; exact ⟨hrow, hcol⟩)]
      rw [ih bs hks]
      simp [add_comm]

theorem rmseLoop_error (l1 l2 : List (SMItem ℝ))
    (hlen : l1.length = l2.length)
    (hkeys : l1.map itemKey ≠ l2.map itemKey) :
    rmseLoop l1 l2 = Except.error ("RMSE row or col not equal") := by
  induction l1 generalizing l2 with
  | nil =>
    cases l2 with
    | nil => simp at hkeys
    | cons b bs => simp at hlen
  | cons a as ih =>
    cases l2 with
    | nil => simp at hlen
    | cons b bs =>
      rw [rmseLoop]
      by_cases hk : a.row = b.row ∧ a.col = b.col
      · rw [if_neg (by push_neg; exact hk)]
        have hkey : itemKey a = itemKey b := by
          unfold itemKey
          rw [hk.1, hk.2]
        have hks : as.map itemKey ≠ bs.map itemKey := by
          intro hcon
          exact hkeys (by simp [hkey, hcon])
        rw [ih bs (by simpa using hlen) hks]
      · rw [if_pos (by tauto)]

theorem zip_self_sq_sum_zero (l : List (SMItem ℝ)) :
    ((l.zip l).map (fun p => square (p.1.val - p.2.val))).sum = 0 := by
  induction l with
  | nil => simp
  | cons a as ih =>
    simp only [List.zip_cons_cons, List.map_cons, List.sum_cons, ih]
    simp [square]

/-- C8: `RMSE` fails exactly when the two matrices differ in entry count
or differ in `(row, col)` key at some position of their sorted entry
sequences; when neither holds it returns the square root of the mean
squared value difference, and in particular `RMSE(M, M) = 0` for every
non-empty `M`. -/
theorem RMSE_spec (mat1 mat2 : SparseMatrix ℝ) :
    ((∃ v, RMSE mat1 mat2 = Except.ok v)
      ↔ (mat1.get_all.length = mat2.get_all.length
          ∧ mat1.get_all.map itemKey = mat2.get_all.map itemKey))
    ∧ (mat1.get_all.length = mat2.get_all.length →
        mat1.get_all.map itemKey = mat2.get_all.map itemKey →
        RMSE mat1 mat2 = Except.ok (Real.sqrt
          ((((mat1.get_all.zip mat2.get_all).map
            (fun p => square (p.1.val - p.2.val))).sum)
            / (mat1.get_all.length : ℝ))))
    ∧ (mat1.get_all ≠ [] → RMSE mat1 mat1 = Except.ok 0) := by
  have hok : ∀ m1 m2 : SparseMatrix ℝ, m1.get_all.length = m2.get_all.length →
      m1.get_all.map itemKey = m2.get_all.map itemKey →
      RMSE m1 m2 = Except.ok (Real.sqrt
        ((((m1.get_all.zip m2.get_all).map
          (fun p => square (p.1.val - p.2.val))).sum)
          / (m1.get_all.length : ℝ))) := by
    intro m1 m2 hlen hkeys
    unfold RMSE
    rw [if_neg (by omega)]
    rw [rmseLoop_ok _ _ hkeys]
  refine ⟨⟨?_, ?_⟩, hok mat1 mat2, ?_⟩
  · intro hv
    rcases hv with ⟨v, hv⟩
    unfold RMSE at hv
    by_cases hlen : mat1.get_all.length = mat2.get_all.length
    · refine ⟨hlen, ?_⟩
      by_cases hkeys : mat1.get_all.map itemKey = mat2.get_all.map itemKey
      · exact hkeys
      · rw [if_neg (by omega), rmseLoop_error _ _ hlen hkeys] at hv
        exact absurd hv (by simp)
    · rw [if_pos (by omega)] at hv
      exact absurd hv (by simp)
  · intro h
    exact ⟨_, hok mat1 mat2 h.1 h.2⟩
  · intro hne
    rw [hok mat1 mat1 rfl rfl]
    rw [zip_self_sq_sum_zero]
    rw [zero_div, Real.sqrt_zero]

/-- C8 witness: the one-entry matrix against itself — non-empty, and its
RMSE with itself is `0`. -/
theorem RMSE_spec_witness :
    (SparseMatrix.ofItems [⟨1, 2, (5 : ℝ)⟩]).get_all ≠ []
    ∧ RMSE (SparseMatrix.ofItems [⟨1, 2, (5 : ℝ)⟩])
        (SparseMatrix.ofItems [⟨1, 2, (5 : ℝ)⟩]) = Except.ok 0 := by
  have hne : (SparseMatrix.ofItems [⟨1, 2, (5 : ℝ)⟩]).get_all ≠ [] := by
    show ([⟨1, 2, (5 : ℝ)⟩] : List (SMItem ℝ)) ≠ []
    exact List.cons_ne_nil _ _
  exact ⟨hne, (RMSE_spec (SparseMatrix.ofItems [⟨1, 2, (5 : ℝ)⟩])
    (SparseMatrix.ofItems [⟨1, 2, (5 : ℝ)⟩])).2.2 hne⟩

/-- `predict` (src/main.cpp lines 552-607): build the transpose, the three
average caches, the reverse attribute matrix and the top-5000 neighbor map,
then answer every query entry through `predict_impl` with the attribute
fallback allowed, collecting the results into a new sparse matrix.  The
neighbor map is read through `operator[]`, modelled by `lookup` with
default `[]`. -/
noncomputable def predict (user_mat test_user_mat : SparseMatrix ℝ)
    (item_attr : SparseMatrix ℤ) : SparseMatrix ℝ :=
  let item_mat := user_mat.transpose
  let global_avg_score := get_global_avg_score user_mat
  let user_avg_score := get_avg_score_by_row user_mat
  let item_avg_score := get_avg_score_by_row item_mat
  let item_attr_rev := item_attr.transpose
  let similar_score_map :=
    get_top_k_similar_mat user_mat 5000 user_avg_score
  let result := test_user_mat.row_indexes.foldl (fun acc test_user_id =>
    acc ++ (test_user_mat.get_row test_user_id).map (fun item =>
      ⟨test_user_id, item.col,
        predict_impl test_user_id item.col user_mat global_avg_score
          user_avg_score item_avg_score
          (fun u => ((similar_score_map.lookup u).getD []))
          item_attr item_attr_rev true⟩))
    []
  SparseMatrix.ofItems result

theorem predict_impl_true_range {α : Type} [LinearOrderedField α]
    (user_id item_id : ℕ) (user_mat : SparseMatrix α) (ga : α)
    (ua ia : ℕ → α) (sm : ℕ → List (ℕ × α))
    (item_attr item_attr_rev : SparseMatrix ℤ) :
    0 ≤ predict_impl user_id item_id user_mat ga ua ia sm item_attr
        item_attr_rev true
    ∧ predict_impl user_id item_id user_mat ga ua ia sm item_attr
        item_attr_rev true ≤ 100 := by
  rcases predict_impl_cases user_id item_id user_mat ga ua ia sm item_attr
    item_attr_rev true with h | h
  · exact h
  · exact absurd h.1 (by simp)

theorem mem_foldl_append_map {β γ : Type} (l : List β) (g : β → List γ)
    (acc : List γ) (x : γ)
    (hx : x ∈ l.foldl (fun acc b => acc ++ g b) acc) :
    x ∈ acc ∨ ∃ b ∈ l, x ∈ g b := by
  induction l generalizing acc with
  | nil => exact Or.inl hx
  | cons b bs ih =>
    simp only [List.foldl_cons] at hx
    rcases ih _ hx with h | h
    · rcases List.mem_append.mp h with h | h
      · exact Or.inl h
      · exact Or.inr ⟨b, List.mem_cons_self _ _, h⟩
    · rcases h with ⟨b2, hb2, hxb⟩
      exact Or.inr ⟨b2, List.mem_cons_of_mem _ hb2, hxb⟩

/-- C10: the top-level `predict` passes the fallback-allowed flag `true`
to `predict_impl` for every query entry, and with the flag `true` the
function always returns a clamped score (never the sentinel), so every
value of the result matrix lies in `[0, 100]`. -/
theorem predict_values_in_range (user_mat test_user_mat : SparseMatrix ℝ)
    (item_attr : SparseMatrix ℤ) :
    ∀ it ∈ (predict user_mat test_user_mat item_attr).get_all,
      0 ≤ it.val ∧ it.val ≤ 100 := by
  intro it hit
  unfold predict at hit
  dsimp only at hit
  have hit2 := (ofItems_mem _ it).mp hit
  rcases mem_foldl_append_map _ _ _ _ hit2 with h | h
  · simp at h
  · rcases h with ⟨u, _, hmem⟩
    rcases List.mem_map.mp hmem with ⟨e, _, heq⟩
    rw [← heq]
    dsimp only
    exact predict_impl_true_range _ _ _ _ _ _ _ _ _

/-- C10 witness: a one-rating training matrix (user 1 gave item 2 the
value 4), a one-entry query for the same cell, and no attributes; the
prediction comes out as the baseline 4, and the theorem bounds it into
`[0, 100]`. -/
theorem predict_values_in_range_witness :
    ((⟨1, 2, (4 : ℝ)⟩ : SMItem ℝ)
      ∈ (predict (SparseMatrix.ofItems [⟨1, 2, (4 : ℝ)⟩])
          (SparseMatrix.ofItems [⟨1, 2, (0 : ℝ)⟩])
          (SparseMatrix.ofItems ([] : List (SMItem ℤ)))).get_all)
    ∧ 0 ≤ (⟨1, 2, (4 : ℝ)⟩ : SMItem ℝ).val
    ∧ (⟨1, 2, (4 : ℝ)⟩ : SMItem ℝ).val ≤ 100 := by
  have hga : get_global_avg_score
      (SparseMatrix.ofItems [⟨1, 2, (4 : ℝ)⟩]) = 4 := by
    unfold get_global_avg_score
    rw [show (SparseMatrix.ofItems [⟨1, 2, (4 : ℝ)⟩]).get_all
      = [⟨1, 2, (4 : ℝ)⟩] from rfl]
    norm_num
  have hua : get_avg_score_by_row
      (SparseMatrix.ofItems [⟨1, 2, (4 : ℝ)⟩]) 1 = 4 := by
    unfold get_avg_score_by_row
    rw [if_pos (show (1 : ℕ) ∈ (SparseMatrix.ofItems
      [⟨1, 2, (4 : ℝ)⟩]).row_indexes by decide)]
    rw [show (SparseMatrix.ofItems [⟨1, 2, (4 : ℝ)⟩]).get_row 1
      = [⟨1, 2, (4 : ℝ)⟩] from rfl]
    norm_num
  have hia : get_avg_score_by_row
      (SparseMatrix.ofItems [⟨1, 2, (4 : ℝ)⟩]).transpose 2 = 4 := by
    unfold get_avg_score_by_row
    rw [if_pos (show (2 : ℕ) ∈ (SparseMatrix.ofItems
      [⟨1, 2, (4 : ℝ)⟩]).transpose.row_indexes by decide)]
    rw [show (SparseMatrix.ofItems [⟨1, 2, (4 : ℝ)⟩]).transpose.get_row 2
      = [⟨2, 1, (4 : ℝ)⟩] from rfl]
    norm_num
  have hsm : get_top_k_similar_mat
      (SparseMatrix.ofItems [⟨1, 2, (4 : ℝ)⟩]) 5000
      (get_avg_score_by_row (SparseMatrix.ofItems [⟨1, 2, (4 : ℝ)⟩]))
      = [(1, [])] := by
    unfold get_top_k_similar_mat
    dsimp only
    rw [show (SparseMatrix.ofItems [⟨1, 2, (4 : ℝ)⟩]).row_indexes = [1]
      from rfl]
    rw [show allPairs [(1 : ℕ)] = ([] : List (ℕ × ℕ)) from rfl]
    simp [sortLe]
  have hpred : predict_impl 1 2 (SparseMatrix.ofItems [⟨1, 2, (4 : ℝ)⟩])
      (get_global_avg_score (SparseMatrix.ofItems [⟨1, 2, (4 : ℝ)⟩]))
      (get_avg_score_by_row (SparseMatrix.ofItems [⟨1, 2, (4 : ℝ)⟩]))
      (get_avg_score_by_row
        (SparseMatrix.ofItems [⟨1, 2, (4 : ℝ)⟩]).transpose)
      (fun u => (((get_top_k_similar_mat
        (SparseMatrix.ofItems [⟨1, 2, (4 : ℝ)⟩]) 5000
        (get_avg_score_by_row
          (SparseMatrix.ofItems [⟨1, 2, (4 : ℝ)⟩]))).lookup u).getD []))
      (SparseMatrix.ofItems ([] : List (SMItem ℤ)))
      (SparseMatrix.ofItems ([] : List (SMItem ℤ))).transpose true = 4 := by
    unfold predict_impl
    dsimp only
    rw [hsm]
    rw [show (List.lookup (1 : ℕ)
      [((1 : ℕ), ([] : List (ℕ × ℝ)))]).getD [] = [] from rfl]
    simp only [List.foldl_nil]
    rw [if_pos (Or.inr (by norm_num : ((0 : ℝ), (0 : ℝ), (0 : ℕ)).2.2 ≤ 1))]
    rw [if_neg (by simp : ¬ (true = false))]
    rw [show get_similar_items 2 (SparseMatrix.ofItems ([] : List (SMItem ℤ)))
      (SparseMatrix.ofItems ([] : List (SMItem ℤ))).transpose
      = [] from rfl]
    simp only [List.foldl_nil]
    rw [if_neg (by norm_num [eps] : ¬ eps ℝ < ((0 : ℝ), (0 : ℝ)).2)]
    rw [hga, hua, hia]
    unfold clamp
    rw [if_neg (by norm_num), if_neg (by norm_num)]
    norm_num
  have hmem : (⟨1, 2, (4 : ℝ)⟩ : SMItem ℝ)
      ∈ (predict (SparseMatrix.ofItems [⟨1, 2, (4 : ℝ)⟩])
          (SparseMatrix.ofItems [⟨1, 2, (0 : ℝ)⟩])
          (SparseMatrix.ofItems ([] : List (SMItem ℤ)))).get_all := by
    unfold predict
    dsimp only
    rw [show (SparseMatrix.ofItems [⟨1, 2, (0 : ℝ)⟩]).row_indexes = [1]
      from rfl]
    simp only [List.foldl_cons, List.foldl_nil, List.nil_append]
    rw [show (SparseMatrix.ofItems [⟨1, 2, (0 : ℝ)⟩]).get_row 1
      = [⟨1, 2, (0 : ℝ)⟩] from rfl]
    simp only [List.map_cons, List.map_nil]
    rw [hpred]
    rw [show (SparseMatrix.ofItems
      [(⟨1, 2, (4 : ℝ)⟩ : SMItem ℝ)]).get_all = [⟨1, 2, (4 : ℝ)⟩] from rfl]
    exact List.mem_singleton.mpr rfl
  refine ⟨hmem, ?_, ?_⟩
  · exact (predict_values_in_range (SparseMatrix.ofItems [⟨1, 2, (4 : ℝ)⟩])
      (SparseMatrix.ofItems [⟨1, 2, (0 : ℝ)⟩])
      (SparseMatrix.ofItems ([] : List (SMItem ℤ))) ⟨1, 2, (4 : ℝ)⟩ hmem).1
  · exact (predict_values_in_range (SparseMatrix.ofItems [⟨1, 2, (4 : ℝ)⟩])
      (SparseMatrix.ofItems [⟨1, 2, (0 : ℝ)⟩])
      (SparseMatrix.ofItems ([] : List (SMItem ℤ))) ⟨1, 2, (4 : ℝ)⟩ hmem).2
